import Mathlib

/-!
Verification development for the jellyfin-music-cleanup deduplication engine.

The Python source is shallowly embedded over `List Char` / `String`, with
floating-point similarity scores modelled exactly as rationals (`ℚ`).
Sections:
  1. Python string primitives (whitespace, case folding, substring search,
     strip, whitespace collapse, splitting).
  2. The regex substitutions used by `DuplicateFinder.normalize_name`
     (`src/duplicate_finder.py`) as explicit left-to-right scanners.
  3. The `rapidfuzz` metrics `fuzz.ratio` / `fuzz.token_sort_ratio`
     (normalized InDel similarity, i.e. `200 * lcs / (|a| + |b|)`).
  4. The grouping engine `find_duplicates`, canonical-name arbiter
     `suggest_canonical_name`, junk classifier (`src/app.py`), the
     playlist-to-album matcher and the track-level merge loop.
Theorems for the frozen claims follow the definitions.
-/

/-- Python `\s` / `str.split()` / `str.strip()` whitespace (ASCII model):
space, tab, newline, carriage return, vertical tab, form feed. -/
def pySpace (c : Char) : Bool :=
  c.toNat = 32 || c.toNat = 9 || c.toNat = 10 || c.toNat = 13 ||
  c.toNat = 11 || c.toNat = 12

/-- ASCII uppercase letter. -/
def isUpperAlpha (c : Char) : Bool := 65 ≤ c.toNat && c.toNat ≤ 90

/-- ASCII lowercase letter. -/
def isLowerAlpha (c : Char) : Bool := 97 ≤ c.toNat && c.toNat ≤ 122

/-- ASCII letter (Python "cased" characters, ASCII model). -/
def isAsciiAlpha (c : Char) : Bool := isUpperAlpha c || isLowerAlpha c

/-- ASCII digit. -/
def isAsciiDigit (c : Char) : Bool := 48 ≤ c.toNat && c.toNat ≤ 57

/-- Python regex `\w` (ASCII model): letter, digit or underscore. -/
def isWordChar (c : Char) : Bool := isAsciiAlpha c || isAsciiDigit c || c.toNat = 95

/-- `str.lower` on one character (ASCII model). -/
def lowerChar (c : Char) : Char :=
  if 65 ≤ c.toNat ∧ c.toNat ≤ 90 then Char.ofNat (c.toNat + 32) else c

/-- `str.upper` on one character (ASCII model). -/
def upperChar (c : Char) : Char :=
  if 97 ≤ c.toNat ∧ c.toNat ≤ 122 then Char.ofNat (c.toNat - 32) else c

/-- `str.lower`. -/
def pyLower (l : List Char) : List Char := l.map lowerChar

/-- `str.upper`. -/
def pyUpper (l : List Char) : List Char := l.map upperChar

/-- `str.title` (ASCII model): a letter is uppercased when the previous
character is not a letter, lowercased otherwise; `prev` tracks whether the
previous character was a letter. -/
def pyTitleAux : Bool → List Char → List Char
  | _, [] => []
  | prev, c :: t =>
    (if isAsciiAlpha c then (if prev then lowerChar c else upperChar c) else c)
      :: pyTitleAux (isAsciiAlpha c) t

/-- `str.title` (ASCII model). -/
def pyTitle (l : List Char) : List Char := pyTitleAux false l

/-- Whether `w` occurs as a contiguous substring of `l` (Python `w in l`). -/
def hasSub (w : List Char) : List Char → Bool
  | [] => w.isEmpty
  | c :: t => w.isPrefixOf (c :: t) || hasSub w t

/-- `str.count` for a single character. -/
def countChar (c : Char) (l : List Char) : Nat := l.countP (fun d => d = c)

/-- Split at the first occurrence of `sep` (assumed present):
returns the parts before and after it, as `s.split(sep, 1)` does. -/
def splitFirstAt (sep : List Char) : List Char → List Char × List Char
  | [] => ([], [])
  | c :: t =>
    if sep.isPrefixOf (c :: t) then ([], (c :: t).drop sep.length)
    else
      let r := splitFirstAt sep t
      (c :: r.1, r.2)

/-- Remove trailing Python whitespace. -/
def dropTrailWs (l : List Char) : List Char := (l.reverse.dropWhile pySpace).reverse

/-- `str.strip()`. -/
def pyStrip (l : List Char) : List Char := dropTrailWs (l.dropWhile pySpace)

/-- `re.sub(r'\s+', ' ', l)`: each maximal whitespace run becomes a single
space.  A whitespace character followed by another is dropped; the last
character of each run becomes `' '`. -/
def collapseWs : List Char → List Char
  | [] => []
  | [c] => if pySpace c then [' '] else [c]
  | c1 :: c2 :: t =>
    if pySpace c1 && pySpace c2 then collapseWs (c2 :: t)
    else (if pySpace c1 then ' ' else c1) :: collapseWs (c2 :: t)

/-- `str.split()` helper: `acc` holds the current word, reversed. -/
def pySplitAux : List Char → List Char → List (List Char)
  | [], acc => if acc.isEmpty then [] else [acc.reverse]
  | c :: t, acc =>
    if pySpace c then
      if acc.isEmpty then pySplitAux t [] else acc.reverse :: pySplitAux t []
    else pySplitAux t (c :: acc)

/-- `str.split()`: split on whitespace runs, discarding empty tokens. -/
def pySplitWs (l : List Char) : List (List Char) := pySplitAux l []

/-- Python string `<` (lexicographic by code point). -/
def strLt : List Char → List Char → Bool
  | _, [] => false
  | [], _ :: _ => true
  | a :: as, b :: bs => a.toNat < b.toNat || (a = b && strLt as bs)

/-- Insert into an ascending list (by Python string `<`). -/
def insertStr (x : List Char) : List (List Char) → List (List Char)
  | [] => [x]
  | h :: t => if strLt h x then h :: insertStr x t else x :: h :: t

/-- `sorted` on a list of strings (ascending, by code point). -/
def sortStrs : List (List Char) → List (List Char)
  | [] => []
  | h :: t => insertStr h (sortStrs t)

/-- `" ".join(tokens)`. -/
def joinSpace : List (List Char) → List Char
  | [] => []
  | [w] => w
  | w :: ws => w ++ ' ' :: joinSpace ws

/-- Length of a longest common subsequence, with a fuel argument
(`fuel ≥ |l1| + |l2|` suffices) so that the kernel can evaluate it. -/
def lcsAux : Nat → List Char → List Char → Nat
  | 0, _, _ => 0
  | _ + 1, [], _ => 0
  | _ + 1, _ :: _, [] => 0
  | fuel + 1, a :: as, b :: bs =>
    if a = b then 1 + lcsAux fuel as bs
    else max (lcsAux fuel (a :: as) bs) (lcsAux fuel as (b :: bs))

/-- Length of a longest common subsequence of two strings. -/
def lcsLen (l1 l2 : List Char) : Nat := lcsAux (l1.length + l2.length) l1 l2

/-- `rapidfuzz.fuzz.ratio`: normalized InDel similarity scaled to 0..100,
`100 * (1 - dist/(|a|+|b|)) = 200 * lcs / (|a|+|b|)`; two empty strings
score 100. -/
def ratioSim (l1 l2 : List Char) : ℚ :=
  if l1.length + l2.length = 0 then 100
  else (200 * lcsLen l1 l2 : ℚ) / (l1.length + l2.length : ℚ)

/-- `rapidfuzz.fuzz.token_sort_ratio`: split both strings on whitespace,
sort the tokens, rejoin with single spaces, then apply `ratioSim`. -/
def tokenSortSim (l1 l2 : List Char) : ℚ :=
  ratioSim (joinSpace (sortStrs (pySplitWs l1))) (joinSpace (sortStrs (pySplitWs l2)))

/-- Leading-whitespace span: number of leading whitespace characters and
the remainder after them. -/
def spanSpace (l : List Char) : Nat × List Char :=
  ((l.takeWhile pySpace).length, l.dropWhile pySpace)

/-- Try to match the regex `\s+WORD\s+` at the head of `l` (both `\s+`
greedy, as in `re`); on success return what follows the match. -/
def matchWsWordWs (w : List Char) (l : List Char) : Option (List Char) :=
  let s1 := spanSpace l
  if s1.1 = 0 then none
  else if w.isPrefixOf s1.2 then
    let s2 := spanSpace (s1.2.drop w.length)
    if s2.1 = 0 then none else some s2.2
  else none

/-- Generic model of `re.sub`: scan left to right; where `tryAt` matches,
emit `rep` and continue after the match (the replacement is not rescanned),
otherwise emit one character and move on.  `fuel ≥ length of the input`
makes the fuel immaterial, since every step consumes at least one input
character. -/
def scanSub (tryAt : List Char → Option (List Char)) (rep : List Char) :
    Nat → List Char → List Char
  | 0, l => l
  | _ + 1, [] => []
  | fuel + 1, c :: t =>
    match tryAt (c :: t) with
    | some rest => rep ++ scanSub tryAt rep fuel rest
    | none => c :: scanSub tryAt rep fuel t

/-- `re.sub(r'\s+and\s+', ' & ', l)`. -/
def subAnd (l : List Char) : List Char :=
  scanSub (matchWsWordWs ['a', 'n', 'd']) [' ', '&', ' '] l.length l

/-- `re.sub(r'\s+the\s+', ' ', l)`. -/
def subThe (l : List Char) : List Char :=
  scanSub (matchWsWordWs ['t', 'h', 'e']) [' '] l.length l

/-- `re.sub(r'^the\s+', '', l)`: anchored, so it fires at most once. -/
def stripLeadThe (l : List Char) : List Char :=
  if ['t', 'h', 'e'].isPrefixOf l then
    let s := spanSpace (l.drop 3)
    if s.1 = 0 then l else s.2
  else l

/-- Lazy `.*?\)`: consume up to the first `')'` (never across a newline,
since `.` does not match `'\n'`); return what follows the `')'`. -/
def scanCloseParen : List Char → Option (List Char)
  | [] => none
  | c :: t => if c = ')' then some t else if c = '\n' then none else scanCloseParen t

/-- Try to match `\s*MARKER.*?\)` at the head of `l` (used with markers
`"(feat."` and `"(ft."`). -/
def tryParenAt (marker : List Char) (l : List Char) : Option (List Char) :=
  let s := spanSpace l
  if marker.isPrefixOf s.2 then scanCloseParen (s.2.drop marker.length) else none

/-- `.*$` after a match of the marker: `.` cannot cross `'\n'` and `$`
matches only at the end of the string or before a single final `'\n'`,
so the match succeeds iff the rest is newline-free (remainder `[]`) or its
only newline is its last character (remainder `['\n']`). -/
def tailToLineEnd (rest : List Char) : Option (List Char) :=
  if '\n' ∈ rest then
    if rest.getLast? = some '\n' ∧ '\n' ∉ rest.dropLast then some ['\n'] else none
  else some []

/-- Try to match `\s*MARKER.*$` at the head of `l` (markers `"feat."`,
`"ft."`). -/
def tryTrailAt (marker : List Char) (l : List Char) : Option (List Char) :=
  let s := spanSpace l
  if marker.isPrefixOf s.2 then tailToLineEnd (s.2.drop marker.length) else none

/-- `re.sub(r'\s*\(feat\..*?\)', '', l)`. -/
def subFeatParen (l : List Char) : List Char :=
  scanSub (tryParenAt ['(', 'f', 'e', 'a', 't', '.']) [] l.length l

/-- `re.sub(r'\s*\(ft\..*?\)', '', l)`. -/
def subFtParen (l : List Char) : List Char :=
  scanSub (tryParenAt ['(', 'f', 't', '.']) [] l.length l

/-- `re.sub(r'\s*feat\..*$', '', l)`. -/
def subFeatTrail (l : List Char) : List Char :=
  scanSub (tryTrailAt ['f', 'e', 'a', 't', '.']) [] l.length l

/-- `re.sub(r'\s*ft\..*$', '', l)`. -/
def subFtTrail (l : List Char) : List Char :=
  scanSub (tryTrailAt ['f', 't', '.']) [] l.length l

/-- The function words that block the `"Last, First"` rewrite in
`normalize_name` (substring test against the lowercased second part). -/
def funcWords : List (List Char) :=
  [['t', 'h', 'e'], ['a', 'n', 'd'], ['&'], ['f', 'e', 'a', 't'], ['w', 'i', 't', 'h']]

/-- The `"Last, First"` rewrite of `normalize_name`: fires when `", "`
occurs and the name holds exactly one comma (then `split(", ")` always
yields exactly two parts), unless the lowercased second part contains a
function word; rewrites `"First, Second"` to `"Second First"`. -/
def commaStep (l : List Char) : List Char :=
  if hasSub [',', ' '] l ∧ countChar ',' l = 1 then
    let p := splitFirstAt [',', ' '] l
    if funcWords.any (fun w => hasSub w (pyLower p.2)) then l
    else p.2 ++ ' ' :: p.1
  else l

/-- `DuplicateFinder.normalize_name` (src/duplicate_finder.py, lines
37-63): strip, `"Last, First"` rewrite, lowercase, `and` → `&`, standalone
mid-string and leading `the` removal, feat/ft suffix stripping (the input
is already lowercase at that point, so `re.IGNORECASE` is immaterial),
whitespace collapse, strip. -/
def normalizeChars (l : List Char) : List Char :=
  let l1 := commaStep (pyStrip l)
  let l2 := pyLower l1
  let l3 := subAnd l2
  let l4 := subThe l3
  let l5 := stripLeadThe l4
  let l6 := subFeatParen l5
  let l7 := subFtParen l6
  let l8 := subFeatTrail l7
  let l9 := subFtTrail l8
  pyStrip (collapseWs l9)

/-- String-level `DuplicateFinder.normalize_name`. -/
def normalize_name (s : String) : String := ⟨normalizeChars s.data⟩

/-- The punctuation characters folded to spaces by `_normalize_for_dedup`
(regex class `[/\-–—&+]`). -/
def punctFoldChar (c : Char) : Char :=
  if c = '/' ∨ c = '-' ∨ c = '–' ∨ c = '—' ∨ c = '&' ∨ c = '+' then ' ' else c

/-- `_normalize_for_dedup` (src/app.py, lines 332-340): lowercase + strip,
rewrite a trailing `", the"` to a leading `"the "`, fold `[/\-–—&+]` to
spaces, drop remaining non-word non-space characters, collapse whitespace,
strip. -/
def dedupNormChars (l : List Char) : List Char :=
  let n0 := pyStrip (pyLower l)
  let n1 :=
    if [',', ' ', 't', 'h', 'e'].isSuffixOf n0 then
      ['t', 'h', 'e', ' '] ++ n0.take (n0.length - 5)
    else n0
  let n3 := (n1.map punctFoldChar).filter (fun c => isWordChar c || pySpace c)
  pyStrip (collapseWs n3)

/-- String-level `_normalize_for_dedup`. -/
def normalize_for_dedup (s : String) : String := ⟨dedupNormChars s.data⟩

example : normalize_name "AC/DC" = "ac/dc" := by decide
example : normalize_name "AC-DC" = "ac-dc" := by decide
example : normalize_name "ACDC" = "acdc" := by decide
example : normalize_name "The Beatles" = "beatles" := by decide
example : normalize_name "Beatles, The" = "beatles, the" := by decide
example : normalize_name "a, the b" = "a, b" := by decide
example : normalize_name "a, b" = "b a" := by decide
example : normalize_name "X (feat. Y)" = "x" := by decide
example : normalize_name "Simon and Garfunkel" = "simon & garfunkel" := by decide
example : normalize_for_dedup "Beatles, The" = "the beatles" := by decide
example : normalize_for_dedup "The Beatles" = "the beatles" := by decide
example : normalize_for_dedup "AC/DC" = "ac dc" := by decide
example : normalize_for_dedup "AC-DC" = "ac dc" := by decide
example : normalize_for_dedup "ACDC" = "acdc" := by decide

/-- Word-character test on an optional character: a missing character
(string edge) counts as non-word for `\b`. -/
def wordB : Option Char → Bool
  | some c => isWordChar c
  | none => false

/-- The lowercased alternatives of the category rule
`(?i)\b(albums?|collections?|playlists?|discs?|volumes?|vol\.|tracks?|songs?|greatest hits|best of|anthology|box set|boxset|rarities|singles?|b-sides?)\b`,
with each optional plural spelled out (regex backtracking tries both, so a
boolean match is an existence test over these variants). -/
def categoryVariants : List (List Char) :=
  ["album", "albums", "collection", "collections", "playlist", "playlists",
   "disc", "discs", "volume", "volumes", "vol.", "track", "tracks",
   "song", "songs", "greatest hits", "best of", "anthology", "box set",
   "boxset", "rarities", "single", "singles", "b-side", "b-sides"].map String.data

/-- The category junk rule under `re.match` semantics: the pattern must
match at position 0, i.e. the leading `\b` holds there (first character is
a word character), some variant is a case-insensitive prefix, and `\b`
holds after it (word-ness changes between the variant's last character and
the next one, a missing next character being non-word). -/
def matchCategory (l : List Char) : Bool :=
  let low := pyLower l
  wordB low.head? &&
    categoryVariants.any (fun v =>
      v.isPrefixOf low && (wordB v.getLast? != wordB (low.drop v.length).head?))

/-- Without `re.MULTILINE`, `$` also matches just before a single final
newline; the anchored rules therefore ignore one trailing `'\n'`. -/
def stripFinalNl (l : List Char) : List Char :=
  if l.getLast? = some '\n' then l.dropLast else l

/-- Junk rule `^\d+$`. -/
def ruleNumericOnly (l : List Char) : Bool :=
  let c := stripFinalNl l
  !c.isEmpty && c.all isAsciiDigit

/-- Junk rule `^.{1,2}$` (`.` does not match `'\n'`). -/
def ruleShort (l : List Char) : Bool :=
  let c := stripFinalNl l
  (c.length = 1 || c.length = 2) && !c.contains '\n'

/-- Junk rule `^\d`. -/
def ruleStartsDigit : List Char → Bool
  | [] => false
  | c :: _ => isAsciiDigit c

/-- Junk rule `^[A-Z0-9]{12,}$`. -/
def ruleLongCaps (l : List Char) : Bool :=
  let c := stripFinalNl l
  12 ≤ c.length && c.all (fun d => isUpperAlpha d || isAsciiDigit d)

/-- `_JUNK_RULES` (src/app.py, lines 274-281) evaluated in order with
`re.match` (anchored at position 0); the matching labels in rule order. -/
def junkReasons (l : List Char) : List String :=
  (if ruleNumericOnly l then ["numeric only"] else []) ++
  (if ruleShort l then ["≤2 characters"] else []) ++
  (if ruleStartsDigit l then ["starts with digit"] else []) ++
  (if ruleLongCaps l then ["long all-caps string"] else []) ++
  (if matchCategory l then ["looks like a category/label"] else [])

/-- `_JUNK_WHITELIST` (src/app.py, lines 268-272). -/
def junkWhitelist : List String :=
  ["a", "x", "u2", "l7", "oz", "p!nk", "sia", "elo", "reo", "bad", "yes",
   "ratt", "tool", "cake", "hole", "bush", "live", "ride", "wire", "gang",
   "2wo", "3eb", "10cc", "inxs", "nofx", "mxpx", "acdc", "ac/dc", "ac-dc"]

/-- The classification of one artist name in `scan_junk_artists`
(src/app.py, lines 289-295): the matched rule labels, cleared when the
lowercased name is whitelisted (the record is flagged iff this list is
nonempty). -/
def classify (s : String) : List String :=
  let reasons := junkReasons s.data
  if ¬reasons.isEmpty ∧ (⟨pyLower s.data⟩ : String) ∉ junkWhitelist then reasons
  else []

example : classify "01" = ["numeric only", "≤2 characters", "starts with digit"] := by decide
example : classify "U2" = [] := by decide
example : classify "My Greatest Hits" = [] := by decide
example : classify "Greatest Hits" = ["looks like a category/label"] := by decide
example : classify "Albums" = ["looks like a category/label"] := by decide

/-- Case-insensitive match of `(and|&)\s+the\s+` after mandatory leading
whitespace, at the head of an (already lowercased) string: the body of
`re.search(r'\s+(and|&)\s+the\s+', name, re.IGNORECASE)` at one position. -/
def andTheFrom (l : List Char) : Bool :=
  let s1 := spanSpace l
  if s1.1 = 0 then false
  else
    let afterWord : Option (List Char) :=
      if ['a', 'n', 'd'].isPrefixOf s1.2 then some (s1.2.drop 3)
      else if ['&'].isPrefixOf s1.2 then some (s1.2.drop 1)
      else none
    match afterWord with
    | none => false
    | some r2 =>
      let s2 := spanSpace r2
      if s2.1 = 0 then false
      else if ['t', 'h', 'e'].isPrefixOf s2.2 then
        decide ((spanSpace (s2.2.drop 3)).1 ≠ 0)
      else false

/-- `re.search`: try the pattern at every position (input lowercased by
the caller, modelling `re.IGNORECASE`). -/
def andTheSearch : List Char → Bool
  | [] => false
  | c :: t => andTheFrom (c :: t) || andTheSearch t

/-- The heuristic score of one candidate name in
`DuplicateFinder.suggest_canonical_name` (src/duplicate_finder.py, lines
72-84): +10 if no `", "`, + length/10, +5 for an `"… and/& … the …"`
pattern, +3 if exactly title-case, +2 if mixed case.  The Python floats
are modelled exactly as rationals. -/
def scoreName (s : String) : ℚ :=
  let l := s.data
  (if hasSub [',', ' '] l then 0 else 10) +
  (l.length : ℚ) / 10 +
  (if andTheSearch (pyLower l) then 5 else 0) +
  (if pyTitle l = l then 3 else 0) +
  (if pyUpper l ≠ l ∧ pyLower l ≠ l then 2 else 0)

/-- Strict lexicographic order on `(score, name)` pairs, as Python
compares the tuples built by `suggest_canonical_name`. -/
def scoreLt (a b : ℚ × String) : Bool :=
  decide (a.1 < b.1) || (decide (a.1 = b.1) && strLt a.2.data b.2.data)

/-- The earliest lexicographically-maximal `(score, name)` pair.
`scored_names.sort(reverse=True)` is a stable descending sort of the
tuples, so `scored_names[0]` is exactly this fold's result (pairs that
compare equal are identical, so which of them is kept is immaterial). -/
def pickBest : ℚ × String → List (ℚ × String) → ℚ × String
  | best, [] => best
  | best, p :: t => pickBest (if scoreLt best p then p else best) t

/-- `DuplicateFinder.suggest_canonical_name` (src/duplicate_finder.py,
lines 65-87). -/
def suggest_canonical_name (names : List String) : String :=
  match names with
  | [] => ""
  | [n] => n
  | n :: rest => (pickBest (scoreName n, n) (rest.map fun m => (scoreName m, m))).2

example : suggest_canonical_name [] = "" := by decide
example : suggest_canonical_name ["only"] = "only" := by decide

/-- An album as consumed by the playlist matcher (`Name`, `AlbumArtist`). -/
structure AlbumRecord where
  name : String
  album_artist : String
deriving DecidableEq

/-- The album loop of `_match_playlist_to_album` (src/app.py, lines
177-184): first album, in input order, whose lowercased name/artist
token-sort-score against the split parts reaches 85 resp. 75. -/
def matchAlbumLoop (artist_norm album_norm : List Char) :
    List AlbumRecord → Option String
  | [] => none
  | al :: rest =>
    if 85 ≤ tokenSortSim (pyLower al.name.data) album_norm ∧
       75 ≤ tokenSortSim (pyLower al.album_artist.data) artist_norm then
      some (al.name ++ " (by " ++ al.album_artist ++ ")")
    else matchAlbumLoop artist_norm album_norm rest

/-- `_match_playlist_to_album` (src/app.py, lines 165-184). -/
def match_playlist_to_album (playlist_name : String) (albums : List AlbumRecord) :
    Option String :=
  if hasSub [' ', '-', ' '] playlist_name.data then
    let p := splitFirstAt [' ', '-', ' '] playlist_name.data
    matchAlbumLoop (pyLower (pyStrip p.1)) (pyLower (pyStrip p.2)) albums
  else none

/-- A track as consumed by the merge loop (`Id`, `Name`). -/
structure TrackRecord where
  id : String
  name : String
deriving DecidableEq

/-- An artist reference as consumed by the merge loop (`Id`, `Name`). -/
structure ArtistRef where
  id : String
  name : String
deriving DecidableEq

/-- The catalog mutations a merge attempts. -/
inductive MergeOp where
  | deleteTrack (id : String)
  | reassignTrack (id : String) (artist : String)
  | renameArtist (id : String) (newName : String)
  | deleteArtist (id : String)
deriving DecidableEq

/-- Result of one pair merge: the two reported counters, the failed
operations (the code records an error message per failure; the failing
operation stands in for its message), and the full trace of attempted
catalog mutations in order. -/
structure MergeReport where
  deleted_dupes : Nat
  reassigned : Nat
  errors : List MergeOp
  ops : List MergeOp
deriving DecidableEq

/-- The comparison key of a track name in the merge loop:
`t["Name"].lower().strip()`. -/
def trackKey (s : String) : List Char := pyStrip (pyLower s.data)

/-- The per-track loop of `merge_selected_artist_pairs` (src/app.py, lines
405-421): a loser track whose key is among the winner's track keys gets a
best-effort delete, any other a best-effort reassignment to the canonical
name; failures are recorded and the loop continues.  `oracle` decides
whether an attempted catalog mutation succeeds. -/
def mergeLoop (oracle : MergeOp → Bool) (canonical : String)
    (wkeys : List (List Char)) : List TrackRecord → MergeReport
  | [] => { deleted_dupes := 0, reassigned := 0, errors := [], ops := [] }
  | t :: rest =>
    let r := mergeLoop oracle canonical wkeys rest
    if trackKey t.name ∈ wkeys then
      let op := MergeOp.deleteTrack t.id
      { deleted_dupes := (if oracle op then 1 else 0) + r.deleted_dupes,
        reassigned := r.reassigned,
        errors := (if oracle op then [] else [op]) ++ r.errors,
        ops := op :: r.ops }
    else
      let op := MergeOp.reassignTrack t.id canonical
      { deleted_dupes := r.deleted_dupes,
        reassigned := (if oracle op then 1 else 0) + r.reassigned,
        errors := (if oracle op then [] else [op]) ++ r.errors,
        ops := op :: r.ops }

/-- One pair merge of `merge_selected_artist_pairs` (src/app.py, lines
392-437): build the winner's track-key map, run the per-track loop over
the loser's tracks, then attempt the cosmetic rename of the loser artist
(its failure is silently ignored) and the deletion of the loser artist
(its failure is recorded). -/
def merge_artist_pair (oracle : MergeOp → Bool) (winner loser : ArtistRef)
    (winner_tracks loser_tracks : List TrackRecord) : MergeReport :=
  let canonical := winner.name
  let wkeys := winner_tracks.map fun t => trackKey t.name
  let r := mergeLoop oracle canonical wkeys loser_tracks
  let del := MergeOp.deleteArtist loser.id
  { deleted_dupes := r.deleted_dupes,
    reassigned := r.reassigned,
    errors := r.errors ++ (if oracle del then [] else [del]),
    ops := r.ops ++ [MergeOp.renameArtist loser.id canonical, del] }

/-- `ArtistInfo` (src/jellyfin_client.py, lines 14-20; the unused
`sort_name` is omitted). -/
structure ArtistInfo where
  title : String
  item_id : String
  album_count : Nat
  track_count : Nat
deriving DecidableEq

/-- `DuplicateGroup` (src/duplicate_finder.py, lines 15-28). -/
structure DuplicateGroup where
  canonical_name : String
  artists : List ArtistInfo
  similarity_score : ℚ
deriving DecidableEq

/-- `DuplicateGroup.total_tracks`. -/
def DuplicateGroup.total_tracks (g : DuplicateGroup) : Nat :=
  (g.artists.map ArtistInfo.track_count).sum

/-- The coarse normalized key of an artist record. -/
def normKey (a : ArtistInfo) : String := normalize_name a.title

/-- The distinct normalized keys in first-appearance order: the iteration
order of the `defaultdict(list)` built by `find_duplicates` (Python dicts
iterate keys in first-insertion order). -/
def bucketKeys (artists : List ArtistInfo) : List String :=
  artists.foldl (fun ks a => if normKey a ∈ ks then ks else ks ++ [normKey a]) []

/-- The `normalized_map` of `find_duplicates`: each key with the input
records carrying that key, in input order (append order of the
`defaultdict`). -/
def bucketsOf (artists : List ArtistInfo) : List (String × List ArtistInfo) :=
  (bucketKeys artists).map fun k => (k, artists.filter fun a => normKey a = k)

/-- The exact-bucket pass (src/duplicate_finder.py, lines 98-108): every
bucket with at least two members becomes a group with score 100. -/
def bucketGroups (artists : List ArtistInfo) : List DuplicateGroup :=
  ((bucketsOf artists).filter fun b => 1 < b.2.length).map fun b =>
    { canonical_name := suggest_canonical_name (b.2.map ArtistInfo.title),
      artists := b.2,
      similarity_score := 100 }

/-- `processed_keys`: the ids consumed by the exact-bucket pass. -/
def processedIds (artists : List ArtistInfo) : List String :=
  ((bucketsOf artists).filter fun b => 1 < b.2.length).flatMap fun b =>
    b.2.map ArtistInfo.item_id

/-- `max(fuzz.ratio, fuzz.token_sort_ratio)` on two normalized names. -/
def bestSim (n1 n2 : String) : ℚ :=
  max (ratioSim n1.data n2.data) (tokenSortSim n1.data n2.data)

/-- The inner loop of the fuzzy pass (src/duplicate_finder.py, lines
123-134): scan the records after the group starter, in order; skip ids in
`used_in_group`; accept a record when the best similarity of its
normalized form against the *starter's* normalized form reaches the
threshold, appending it and its score and marking its id used.  Returns
the accepted records, their scores, and the grown used set. -/
def innerScan (th : ℚ) (norm1 : String) :
    List (String × ArtistInfo) → List String →
    List ArtistInfo × List ℚ × List String
  | [], used => ([], [], used)
  | (norm2, a2) :: tl, used =>
    if a2.item_id ∈ used then innerScan th norm1 tl used
    else if th ≤ bestSim norm1 norm2 then
      let r := innerScan th norm1 tl (a2.item_id :: used)
      (a2 :: r.1, bestSim norm1 norm2 :: r.2.1, r.2.2)
    else innerScan th norm1 tl used

/-- The outer loop of the fuzzy pass (src/duplicate_finder.py, lines
115-144): each not-yet-used record starts a candidate group (its id marked
used even when the candidate is later discarded); groups of size one are
dropped; a surviving group gets the arbiter's canonical name and the mean
of its accepted scores (100 if none — unreachable for a surviving group). -/
def outerLoop (th : ℚ) :
    List (String × ArtistInfo) → List String → List DuplicateGroup
  | [], _ => []
  | (norm1, a1) :: tl, used =>
    if a1.item_id ∈ used then outerLoop th tl used
    else
      let r := innerScan th norm1 tl (a1.item_id :: used)
      let grp := a1 :: r.1
      if 1 < grp.length then
        { canonical_name := suggest_canonical_name (grp.map ArtistInfo.title),
          artists := grp,
          similarity_score :=
            if r.2.1.isEmpty then 100 else r.2.1.sum / (r.2.1.length : ℚ) }
          :: outerLoop th tl r.2.2
      else outerLoop th tl r.2.2

/-- Stable insertion before the first group with no more tracks, giving
the stable descending order of Python's
`duplicate_groups.sort(key=lambda g: g.total_tracks, reverse=True)`. -/
def insertByTracks (g : DuplicateGroup) :
    List DuplicateGroup → List DuplicateGroup
  | [] => [g]
  | h :: t =>
    if h.total_tracks ≤ g.total_tracks then g :: h :: t
    else h :: insertByTracks g t

/-- Stable descending sort by `total_tracks` (insertion sort; the stable
descending sort is unique as a function, so this agrees with Python's). -/
def sortByTracksDesc : List DuplicateGroup → List DuplicateGroup
  | [] => []
  | g :: t => insertByTracks g (sortByTracksDesc t)

/-- `DuplicateFinder.find_duplicates` (src/duplicate_finder.py, lines
89-148): exact-bucket pass, fuzzy greedy pass over the unconsumed
remainder, then the stable sort by total tracks, descending. -/
def find_duplicates (threshold : ℚ) (artists : List ArtistInfo) :
    List DuplicateGroup :=
  let remaining := artists.filter fun a =>
    decide (a.item_id ∉ processedIds artists)
  let remNorm := remaining.map fun a => (normalize_name a.title, a)
  sortByTracksDesc (bucketGroups artists ++ outerLoop threshold remNorm [])

lemma innerScan_spec (th : ℚ) (n1 : String) :
    ∀ (l : List (String × ArtistInfo)) (used : List String),
      ((innerScan th n1 l used).1.map ArtistInfo.item_id).Nodup ∧
      (∀ a ∈ (innerScan th n1 l used).1, a.item_id ∉ used) ∧
      (∀ x ∈ used, x ∈ (innerScan th n1 l used).2.2) ∧
      (∀ x ∈ (innerScan th n1 l used).2.2,
        x ∈ used ∨ x ∈ (innerScan th n1 l used).1.map ArtistInfo.item_id) ∧
      (∀ a ∈ (innerScan th n1 l used).1, a.item_id ∈ (innerScan th n1 l used).2.2) ∧
      (∀ a ∈ (innerScan th n1 l used).1, a ∈ l.map Prod.snd)
  | [], used => by
    simp [innerScan]
  | (n2, a2) :: tl, used => by
    by_cases h2 : a2.item_id ∈ used
    · have IH := innerScan_spec th n1 tl used
      simp only [innerScan, if_pos h2]
      obtain ⟨i1, i2, i3, i4, i5, i6⟩ := IH
      refine ⟨i1, i2, i3, i4, i5, fun a ha => ?_⟩
      simp only [List.map_cons, List.mem_cons]
      exact Or.inr (i6 a ha)
    · by_cases hth : th ≤ bestSim n1 n2
      · have IH := innerScan_spec th n1 tl (a2.item_id :: used)
        simp only [innerScan, if_neg h2, if_pos hth]
        obtain ⟨i1, i2, i3, i4, i5, i6⟩ := IH
        refine ⟨?_, ?_, ?_, ?_, ?_, ?_⟩
        · simp only [List.map_cons, List.nodup_cons]
          refine ⟨fun hmem => ?_, i1⟩
          obtain ⟨a, ha, hid⟩ := List.mem_map.1 hmem
          exact i2 a ha (hid ▸ List.mem_cons_self _ _)
        · intro a ha
          rcases List.mem_cons.1 ha with rfl | ha'
          · exact h2
          · intro hu; exact i2 a ha' (List.mem_cons_of_mem _ hu)
        · intro x hx
          exact i3 x (List.mem_cons_of_mem _ hx)
        · intro x hx
          rcases i4 x hx with hx' | hx'
          · rcases List.mem_cons.1 hx' with rfl | hx''
            · exact Or.inr (by simp)
            · exact Or.inl hx''
          · exact Or.inr (by simp only [List.map_cons, List.mem_cons]; exact Or.inr hx')
        · intro a ha
          rcases List.mem_cons.1 ha with rfl | ha'
          · exact i3 _ (List.mem_cons_self _ _)
          · exact i5 a ha'
        · intro a ha
          rcases List.mem_cons.1 ha with rfl | ha'
          · simp
          · simp only [List.map_cons, List.mem_cons]; exact Or.inr (i6 a ha')
      · have IH := innerScan_spec th n1 tl used
        simp only [innerScan, if_neg h2, if_neg hth]
        obtain ⟨i1, i2, i3, i4, i5, i6⟩ := IH
        refine ⟨i1, i2, i3, i4, i5, fun a ha => ?_⟩
        simp only [List.map_cons, List.mem_cons]
        exact Or.inr (i6 a ha)

/-- Ids of the members of a list of groups, concatenated. -/
def groupIds (gs : List DuplicateGroup) : List String :=
  gs.flatMap fun g => g.artists.map ArtistInfo.item_id

lemma outerLoop_spec (th : ℚ) :
    ∀ (l : List (String × ArtistInfo)) (used : List String),
      (groupIds (outerLoop th l used)).Nodup ∧
      (∀ x ∈ groupIds (outerLoop th l used),
        x ∉ used ∧ x ∈ l.map fun p => p.2.item_id)
  | [], used => by simp [outerLoop, groupIds]
  | (n1, a1) :: tl, used => by
    by_cases h1 : a1.item_id ∈ used
    · have IH := outerLoop_spec th tl used
      simp only [outerLoop, if_pos h1]
      refine ⟨IH.1, fun x hx => ⟨(IH.2 x hx).1, ?_⟩⟩
      simp only [List.map_cons, List.mem_cons]
      exact Or.inr (IH.2 x hx).2
    · have IS := innerScan_spec th n1 tl (a1.item_id :: used)
      obtain ⟨i1, i2, i3, i4, i5, i6⟩ := IS
      by_cases hlen :
          1 < (a1 :: (innerScan th n1 tl (a1.item_id :: used)).1).length
      · have IH := outerLoop_spec th tl (innerScan th n1 tl (a1.item_id :: used)).2.2
        simp only [outerLoop, if_neg h1, if_pos hlen]
        constructor
        · simp only [groupIds, List.flatMap_cons, List.nodup_append]
          refine ⟨?_, IH.1, ?_⟩
          · simp only [List.map_cons, List.nodup_cons]
            refine ⟨fun hmem => ?_, i1⟩
            obtain ⟨a, ha, hid⟩ := List.mem_map.1 hmem
            exact i2 a ha (hid ▸ List.mem_cons_self _ _)
          · intro x hx hx'
            have hxin : x ∈ (innerScan th n1 tl (a1.item_id :: used)).2.2 := by
              simp only [List.map_cons, List.mem_cons] at hx
              rcases hx with rfl | hx
              · exact i3 _ (List.mem_cons_self _ _)
              · obtain ⟨a, ha, hid⟩ := List.mem_map.1 hx
                exact hid ▸ i5 a ha
            exact (IH.2 x hx').1 hxin
        · intro x hx
          simp only [groupIds, List.flatMap_cons, List.mem_append] at hx
          rcases hx with hx | hx
          · simp only [List.map_cons, List.mem_cons] at hx
            rcases hx with rfl | hx
            · exact ⟨h1, by simp⟩
            · obtain ⟨a, ha, hid⟩ := List.mem_map.1 hx
              refine ⟨fun hu => i2 a ha (hid ▸ List.mem_cons_of_mem _ hu), ?_⟩
              have := i6 a ha
              simp only [List.map_cons, List.mem_cons]
              right
              obtain ⟨p, hp, hps⟩ := List.mem_map.1 this
              exact List.mem_map.2 ⟨p, hp, by rw [hps, hid]⟩
          · have h2 := (IH.2 x hx)
            refine ⟨fun hu => h2.1 (i3 x (List.mem_cons_of_mem _ hu)), ?_⟩
            simp only [List.map_cons, List.mem_cons]
            exact Or.inr h2.2
      · have IH := outerLoop_spec th tl (innerScan th n1 tl (a1.item_id :: used)).2.2
        simp only [outerLoop, if_neg h1, if_neg hlen]
        refine ⟨IH.1, fun x hx => ?_⟩
        have h2 := IH.2 x hx
        refine ⟨fun hu => h2.1 (i3 x (List.mem_cons_of_mem _ hu)), ?_⟩
        simp only [List.map_cons, List.mem_cons]
        exact Or.inr h2.2

lemma bucketKeys_aux_nodup (artists : List ArtistInfo) :
    ∀ acc : List String, acc.Nodup →
      (artists.foldl
        (fun ks a => if normKey a ∈ ks then ks else ks ++ [normKey a]) acc).Nodup := by
  induction artists with
  | nil => intro acc h; simpa using h
  | cons a t ih =>
    intro acc h
    simp only [List.foldl_cons]
    by_cases hk : normKey a ∈ acc
    · simpa [hk] using ih acc h
    · have : (acc ++ [normKey a]).Nodup := by
        simp [List.nodup_append, h, hk]
      simpa [hk] using ih _ this

lemma bucketKeys_nodup (artists : List ArtistInfo) : (bucketKeys artists).Nodup :=
  bucketKeys_aux_nodup artists [] List.nodup_nil

lemma processedIds_eq (artists : List ArtistInfo) :
    processedIds artists = groupIds (bucketGroups artists) := by
  simp only [processedIds, bucketGroups, groupIds, List.flatMap_map]

lemma bucket_mem_shape (artists : List ArtistInfo) {b : String × List ArtistInfo}
    (hb : b ∈ bucketsOf artists) :
    b.2 = artists.filter fun a => normKey a = b.1 := by
  simp only [bucketsOf, List.mem_map] at hb
  obtain ⟨k, _, rfl⟩ := hb
  rfl

lemma bucketGroups_ids_nodup (artists : List ArtistInfo)
    (h : (artists.map ArtistInfo.item_id).Nodup) :
    (groupIds (bucketGroups artists)).Nodup := by
  simp only [groupIds, bucketGroups, List.flatMap_map]
  show ((((bucketsOf artists).filter fun b => 1 < b.2.length).map
    fun b => b.2.map ArtistInfo.item_id).flatten).Nodup
  rw [List.nodup_flatten]
  constructor
  · intro l' hl'
    obtain ⟨b, hb, rfl⟩ := List.mem_map.1 hl'
    have hb' : b ∈ bucketsOf artists := (List.mem_filter.1 hb).1
    rw [bucket_mem_shape artists hb']
    exact List.Nodup.sublist ((List.filter_sublist artists).map ArtistInfo.item_id) h
  · rw [List.pairwise_map]
    apply List.Pairwise.filter
    simp only [bucketsOf, List.pairwise_map]
    have hkeys := bucketKeys_nodup artists
    refine List.Pairwise.imp ?_ hkeys
    intro k1 k2 hne x hx1 hx2
    obtain ⟨a, ha, hida⟩ := List.mem_map.1 hx1
    obtain ⟨b2, hb2, hidb⟩ := List.mem_map.1 hx2
    have ha' := List.mem_filter.1 ha
    have hb' := List.mem_filter.1 hb2
    have hab : a = b2 :=
      List.inj_on_of_nodup_map h ha'.1 hb'.1 (by rw [hida, hidb])
    apply hne
    have e1 : normKey a = k1 := by simpa using ha'.2
    have e2 : normKey b2 = k2 := by simpa using hb'.2
    rw [← e1, ← e2, hab]

lemma insertByTracks_perm (g : DuplicateGroup) (l : List DuplicateGroup) :
    List.Perm (insertByTracks g l) (g :: l) := by
  induction l with
  | nil => simp [insertByTracks]
  | cons h t ih =>
    by_cases hc : h.total_tracks ≤ g.total_tracks
    · simp [insertByTracks, hc]
    · simp only [insertByTracks, if_neg hc]
      exact (ih.cons h).trans (List.Perm.swap g h t)

lemma sortByTracksDesc_perm (l : List DuplicateGroup) :
    List.Perm (sortByTracksDesc l) l := by
  induction l with
  | nil => simp [sortByTracksDesc]
  | cons g t ih =>
    exact (insertByTracks_perm g (sortByTracksDesc t)).trans (ih.cons g)

/-- C1: for pairwise-distinct input ids, every id appears in at most one
group of `find_duplicates` and at most once inside its group: the
concatenation of all member ids of all returned groups has no duplicate. -/
theorem find_duplicates_ids_nodup (threshold : ℚ) (artists : List ArtistInfo)
    (h : (artists.map ArtistInfo.item_id).Nodup) :
    ((find_duplicates threshold artists).flatMap fun g =>
      g.artists.map ArtistInfo.item_id).Nodup := by
  have hperm :
      List.Perm
        ((find_duplicates threshold artists).flatMap fun g =>
          g.artists.map ArtistInfo.item_id)
        (groupIds (bucketGroups artists ++
          outerLoop threshold
            ((artists.filter fun a => decide (a.item_id ∉ processedIds artists)).map
              fun a => (normalize_name a.title, a)) [])) := by
    apply List.Perm.flatMap_right
    exact sortByTracksDesc_perm _
  rw [hperm.nodup_iff]
  set remNorm :=
    (artists.filter fun a => decide (a.item_id ∉ processedIds artists)).map
      fun a => (normalize_name a.title, a) with hrem
  have hOuter := outerLoop_spec threshold remNorm []
  simp only [groupIds, List.flatMap_append, List.nodup_append]
  refine ⟨bucketGroups_ids_nodup artists h, hOuter.1, ?_⟩
  intro x hxB hxF
  have hxP : x ∈ processedIds artists := by
    rw [processedIds_eq]; exact hxB
  have hxR := (hOuter.2 x hxF).2
  rw [hrem] at hxR
  simp only [List.map_map, Function.comp] at hxR
  obtain ⟨a, ha, rfl⟩ := List.mem_map.1 hxR
  have := (List.mem_filter.1 ha).2
  simp only [decide_eq_true_eq] at this
  exact this hxP

/-- C1: for every input sequence of artist records with pairwise-distinct
ids and every threshold, each record id appears in at most one duplicate
group returned by `find_duplicates` (and at most once within its group):
the concatenated member ids of all returned groups have no duplicate, so
the bucket pass and the greedy fuzzy pass produce a partition of a subset
of the input, never a cover. -/
theorem find_duplicates_partition (threshold : ℚ) (artists : List ArtistInfo)
    (h : (artists.map ArtistInfo.item_id).Nodup) :
    ((find_duplicates threshold artists).flatMap fun g =>
      g.artists.map ArtistInfo.item_id).Nodup :=
  find_duplicates_ids_nodup threshold artists h

/-- Witness for C1 at a concrete input with distinct ids. -/
theorem find_duplicates_partition_witness :
    ((([⟨"The Beatles", "a1", 2, 20⟩, ⟨"Beatles", "b2", 1, 5⟩] :
        List ArtistInfo).map ArtistInfo.item_id).Nodup) ∧
    ((find_duplicates 80
        [⟨"The Beatles", "a1", 2, 20⟩, ⟨"Beatles", "b2", 1, 5⟩]).flatMap
      fun g => g.artists.map ArtistInfo.item_id).Nodup :=
  ⟨by decide, find_duplicates_partition 80 _ (by decide)⟩

/-- C10: `suggest_canonical_name` is total over all lists; on the empty
list — outside the spec's nonempty precondition — it returns `""`. -/
theorem suggest_canonical_name_empty : suggest_canonical_name [] = "" := rfl

/-- C9: `classify "01"` reports "numeric only" (among its matched rules),
and `classify "U2"` is empty: the exact case-insensitive whitelist hit
suppresses all flags even though the `≤2 characters` rule matches. -/
theorem classify_numeric_and_whitelist :
    "numeric only" ∈ classify "01" ∧ classify "U2" = [] := by decide

/-- C5: the code evaluates `_JUNK_RULES` with `re.match`, anchoring every
pattern at position 0, so the category word inside "My Greatest Hits" is
never seen: `classify` returns no reasons although the name is not
whitelisted and contains a whole-word category phrase. -/
theorem classify_my_greatest_hits_not_flagged :
    classify "My Greatest Hits" = [] ∧
    (⟨pyLower "My Greatest Hits".data⟩ : String) ∉ junkWhitelist ∧
    hasSub "greatest hits".data (pyLower "My Greatest Hits".data) = true := by
  decide

/-- C4 counterexample: the coarse normalizer does not collapse
`"Beatles, The"` with `"The Beatles"`: the `"Last, First"` rewrite is
blocked because the second part contains the function word `"the"`, and
the mid-string `the`-removal needs trailing whitespace, so the two names
keep the distinct keys `"beatles, the"` and `"beatles"`. -/
theorem beatles_normalize_name_ne :
    normalize_name "Beatles, The" ≠ normalize_name "The Beatles" := by decide

/-- C4 amended: the equality holds for the punctuation-folding pairwise
dedup normalizer `_normalize_for_dedup` (both names map to
`"the beatles"`), not for the coarse `normalize_name`, which yields
`"beatles, the"` and `"beatles"` respectively. -/
theorem beatles_dedup_norm_eq :
    normalize_for_dedup "Beatles, The" = normalize_for_dedup "The Beatles" ∧
    normalize_for_dedup "Beatles, The" = "the beatles" ∧
    normalize_name "Beatles, The" = "beatles, the" ∧
    normalize_name "The Beatles" = "beatles" := by decide

/-- The three spellings of AC/DC used by the spec's example, with
distinct ids. -/
def acdcSlash : ArtistInfo := ⟨"AC/DC", "id1", 1, 10⟩

/-- Second spelling. -/
def acdcDash : ArtistInfo := ⟨"AC-DC", "id2", 1, 5⟩

/-- Third spelling. -/
def acdcPlain : ArtistInfo := ⟨"ACDC", "id3", 1, 3⟩

/-- C2 counterexample: `normalize_name` keeps the three spellings on
three distinct exact-bucket keys (it folds no punctuation), and at
threshold 90 `find_duplicates` returns no group at all — so it is false
that at any threshold the three names share a bucket key and come back as
one group with score 100. -/
theorem acdc_not_one_bucket :
    normalize_name "AC/DC" ≠ normalize_name "AC-DC" ∧
    normalize_name "AC-DC" ≠ normalize_name "ACDC" ∧
    normalize_name "AC/DC" ≠ normalize_name "ACDC" ∧
    find_duplicates 90 [acdcSlash, acdcDash, acdcPlain] = [] := by
  refine ⟨by decide, by decide, by decide, ?_⟩
  have e1 : normalize_name "AC/DC" = "ac/dc" := by decide
  have e2 : normalize_name "AC-DC" = "ac-dc" := by decide
  have e3 : normalize_name "ACDC" = "acdc" := by decide
  have h12 : bestSim "ac/dc" "ac-dc" = 80 := by
    have h : lcsLen "ac/dc".data "ac-dc".data = 4 := by decide
    have ht : joinSpace (sortStrs (pySplitWs "ac/dc".data)) = "ac/dc".data := by decide
    have ht2 : joinSpace (sortStrs (pySplitWs "ac-dc".data)) = "ac-dc".data := by decide
    simp [bestSim, ratioSim, tokenSortSim, h, ht, ht2]
    norm_num
  have h13 : bestSim "ac/dc" "acdc" = 800 / 9 := by
    have h : lcsLen "ac/dc".data "acdc".data = 4 := by decide
    have ht : joinSpace (sortStrs (pySplitWs "ac/dc".data)) = "ac/dc".data := by decide
    have ht2 : joinSpace (sortStrs (pySplitWs "acdc".data)) = "acdc".data := by decide
    simp [bestSim, ratioSim, tokenSortSim, h, ht, ht2]
    norm_num
  have h23 : bestSim "ac-dc" "acdc" = 800 / 9 := by
    have h : lcsLen "ac-dc".data "acdc".data = 4 := by decide
    have ht : joinSpace (sortStrs (pySplitWs "ac-dc".data)) = "ac-dc".data := by decide
    have ht2 : joinSpace (sortStrs (pySplitWs "acdc".data)) = "acdc".data := by decide
    simp [bestSim, ratioSim, tokenSortSim, h, ht, ht2]
    norm_num
  have c1 : ((90 : ℚ) ≤ 80) = False := by norm_num
  have c2 : ((90 : ℚ) ≤ 800 / 9) = False := by norm_num
  have hb : bucketGroups [acdcSlash, acdcDash, acdcPlain] = [] := by decide
  have hp : processedIds [acdcSlash, acdcDash, acdcPlain] = [] := by decide
  simp [find_duplicates, hb, hp, acdcSlash, acdcDash, acdcPlain, e1, e2, e3,
    outerLoop, innerScan, h12, h13, h23, c1, c2, sortByTracksDesc]

/-- C2 amended: the three spellings never share an exact-bucket key; what
happens instead is that at threshold 80 the greedy fuzzy pass returns a
single group holding all three, whose similarity score is the mean of the
accepted pair scores, `(80 + 800/9)/2 = 760/9 ≈ 84.4` — not `100.0`.
Even the punctuation-folding pairwise normalizer `_normalize_for_dedup`
only identifies the first two spellings (`"ac dc"`); `"ACDC"` maps to
`"acdc"`. -/
theorem acdc_single_fuzzy_group_at_80 :
    find_duplicates 80 [acdcSlash, acdcDash, acdcPlain] =
      [{ canonical_name := "AC/DC",
         artists := [acdcSlash, acdcDash, acdcPlain],
         similarity_score := 760 / 9 }] ∧
    normalize_for_dedup "AC/DC" = "ac dc" ∧
    normalize_for_dedup "AC-DC" = "ac dc" ∧
    normalize_for_dedup "ACDC" = "acdc" := by
  refine ⟨?_, by decide, by decide, by decide⟩
  have e1 : normalize_name "AC/DC" = "ac/dc" := by decide
  have e2 : normalize_name "AC-DC" = "ac-dc" := by decide
  have e3 : normalize_name "ACDC" = "acdc" := by decide
  have h12 : bestSim "ac/dc" "ac-dc" = 80 := by
    have h : lcsLen "ac/dc".data "ac-dc".data = 4 := by decide
    have ht : joinSpace (sortStrs (pySplitWs "ac/dc".data)) = "ac/dc".data := by decide
    have ht2 : joinSpace (sortStrs (pySplitWs "ac-dc".data)) = "ac-dc".data := by decide
    simp [bestSim, ratioSim, tokenSortSim, h, ht, ht2]
    norm_num
  have h13 : bestSim "ac/dc" "acdc" = 800 / 9 := by
    have h : lcsLen "ac/dc".data "acdc".data = 4 := by decide
    have ht : joinSpace (sortStrs (pySplitWs "ac/dc".data)) = "ac/dc".data := by decide
    have ht2 : joinSpace (sortStrs (pySplitWs "acdc".data)) = "acdc".data := by decide
    simp [bestSim, ratioSim, tokenSortSim, h, ht, ht2]
    norm_num
  have c1 : ((80 : ℚ) ≤ 80) = True := by norm_num
  have c2 : ((80 : ℚ) ≤ 800 / 9) = True := by norm_num
  have hb : bucketGroups [acdcSlash, acdcDash, acdcPlain] = [] := by decide
  have hp : processedIds [acdcSlash, acdcDash, acdcPlain] = [] := by decide
  have s1 : scoreName "AC/DC" = 21 / 2 := by simp +decide [scoreName]; norm_num
  have s2 : scoreName "AC-DC" = 21 / 2 := by simp +decide [scoreName]; norm_num
  have s3 : scoreName "ACDC" = 52 / 5 := by simp +decide [scoreName]; norm_num
  have l1 : scoreLt ((21 : ℚ) / 2, "AC/DC") ((21 : ℚ) / 2, "AC-DC") = false := by
    simp +decide [scoreLt]
  have l2 : scoreLt ((21 : ℚ) / 2, "AC/DC") ((52 : ℚ) / 5, "ACDC") = false := by
    simp [scoreLt]
    norm_num
  simp [find_duplicates, hb, hp, acdcSlash, acdcDash, acdcPlain, e1, e2, e3,
    outerLoop, innerScan, h12, h13, c1, c2, sortByTracksDesc, insertByTracks,
    suggest_canonical_name, pickBest, s1, s2, s3, l1, l2]
  norm_num

lemma matchAlbumLoop_eq_find (an bn : List Char) (albums : List AlbumRecord) :
    matchAlbumLoop an bn albums =
      (albums.find? fun al =>
        decide (85 ≤ tokenSortSim (pyLower al.name.data) bn ∧
          75 ≤ tokenSortSim (pyLower al.album_artist.data) an)).map
        fun al => al.name ++ " (by " ++ al.album_artist ++ ")" := by
  induction albums with
  | nil => simp [matchAlbumLoop]
  | cons al rest ih =>
    by_cases hc : 85 ≤ tokenSortSim (pyLower al.name.data) bn ∧
        75 ≤ tokenSortSim (pyLower al.album_artist.data) an
    · simp [matchAlbumLoop, hc]
    · simp [matchAlbumLoop, hc, ih]

/-- C6: the playlist-to-album matcher yields `none` when the playlist
name has no `" - "` separator; otherwise it splits at the first separator
into `(artist_part, album_part)` and returns
`"{album.name} (by {album.album_artist})"` for the first album in input
order whose token-sort score of (lowercased) name against the album part
reaches 85 and of (lowercased) album artist against the artist part
reaches 75 — `none` when no album passes both thresholds. -/
theorem match_playlist_to_album_spec (name : String) (albums : List AlbumRecord) :
    match_playlist_to_album name albums =
      if hasSub [' ', '-', ' '] name.data then
        (albums.find? fun al =>
          decide (85 ≤ tokenSortSim (pyLower al.name.data)
              (pyLower (pyStrip (splitFirstAt [' ', '-', ' '] name.data).2)) ∧
            75 ≤ tokenSortSim (pyLower al.album_artist.data)
              (pyLower (pyStrip (splitFirstAt [' ', '-', ' '] name.data).1)))).map
          fun al => al.name ++ " (by " ++ al.album_artist ++ ")"
      else none := by
  by_cases h : hasSub [' ', '-', ' '] name.data
  · simp only [match_playlist_to_album, h, if_true]
    exact matchAlbumLoop_eq_find _ _ albums
  · simp [match_playlist_to_album, h]

/-- C7: merging a pair where the loser has exactly two tracks — one whose
case-folded trimmed name collides with a winner track and one unique —
reports one deleted duplicate and one reassigned track (when the per-item
catalog calls succeed), and attempts the deletion of the loser artist
record exactly once. -/
theorem merge_pair_two_tracks (oracle : MergeOp → Bool) (winner loser : ArtistRef)
    (winner_tracks loser_tracks : List TrackRecord) (t1 t2 : TrackRecord)
    (hall : ∀ op, oracle op = true)
    (h1 : trackKey t1.name ∈ winner_tracks.map fun t => trackKey t.name)
    (h2 : trackKey t2.name ∉ winner_tracks.map fun t => trackKey t.name)
    (horder : loser_tracks = [t1, t2] ∨ loser_tracks = [t2, t1]) :
    (merge_artist_pair oracle winner loser winner_tracks
        loser_tracks).deleted_dupes = 1 ∧
    (merge_artist_pair oracle winner loser winner_tracks
        loser_tracks).reassigned = 1 ∧
    ((merge_artist_pair oracle winner loser winner_tracks
        loser_tracks).ops.countP fun op =>
          match op with
          | MergeOp.deleteArtist _ => true
          | _ => false) = 1 := by
  rcases horder with rfl | rfl <;>
    simp [merge_artist_pair, mergeLoop, h1, h2, hall, List.countP_cons,
      List.countP_append]

lemma strLt_irrefl (l : List Char) : strLt l l = false := by
  induction l with
  | nil => rfl
  | cons a t ih => simp [strLt, ih]

lemma strLt_trans : ∀ a b c : List Char,
    strLt a b = true → strLt b c = true → strLt a c = true
  | _, _, [] , _, h2 => by simp [strLt] at h2
  | [], _ :: _, _ :: _, _, _ => by simp [strLt]
  | _ :: _, [], _ :: _, h1, _ => by simp [strLt] at h1
  | a :: as, b :: bs, c :: cs, h1, h2 => by
    simp only [strLt, Bool.or_eq_true, Bool.and_eq_true, decide_eq_true_eq] at h1 h2 ⊢
    rcases h1 with h1 | ⟨rfl, h1⟩
    · rcases h2 with h2 | ⟨rfl, h2⟩
      · exact Or.inl (h1.trans h2)
      · exact Or.inl h1
    · rcases h2 with h2 | ⟨rfl, h2⟩
      · exact Or.inl h2
      · exact Or.inr ⟨rfl, strLt_trans as bs cs h1 h2⟩

lemma strLt_total : ∀ a b : List Char, strLt a b = true ∨ a = b ∨ strLt b a = true
  | [], [] => Or.inr (Or.inl rfl)
  | [], _ :: _ => Or.inl (by simp [strLt])
  | _ :: _, [] => Or.inr (Or.inr (by simp [strLt]))
  | a :: as, b :: bs => by
    rcases Nat.lt_trichotomy a.toNat b.toNat with h | h | h
    · exact Or.inl (by simp [strLt, h])
    · have hab : a = b := Char.eq_of_val_eq (UInt32.ext h)
      subst hab
      rcases strLt_total as bs with h' | h' | h'
      · exact Or.inl (by simp [strLt, h'])
      · exact Or.inr (Or.inl (by rw [h']))
      · exact Or.inr (Or.inr (by simp [strLt, h']))
    · exact Or.inr (Or.inr (by simp [strLt, h]))

lemma scoreLt_iff (a b : ℚ × String) :
    scoreLt a b = true ↔ a.1 < b.1 ∨ (a.1 = b.1 ∧ strLt a.2.data b.2.data = true) := by
  simp [scoreLt]

lemma scoreLt_irrefl (a : ℚ × String) : scoreLt a a = false := by
  simp [scoreLt, strLt_irrefl]

lemma scoreLt_trans {a b c : ℚ × String} (h1 : scoreLt a b = true)
    (h2 : scoreLt b c = true) : scoreLt a c = true := by
  rw [scoreLt_iff] at h1 h2 ⊢
  rcases h1 with h1 | ⟨e1, h1⟩
  · rcases h2 with h2 | ⟨e2, h2⟩
    · exact Or.inl (h1.trans h2)
    · exact Or.inl (e2 ▸ h1)
  · rcases h2 with h2 | ⟨e2, h2⟩
    · exact Or.inl (e1 ▸ h2)
    · exact Or.inr ⟨e1.trans e2, strLt_trans _ _ _ h1 h2⟩

lemma scoreLt_total (a b : ℚ × String) :
    scoreLt a b = true ∨ a = b ∨ scoreLt b a = true := by
  rcases lt_trichotomy a.1 b.1 with h | h | h
  · exact Or.inl ((scoreLt_iff a b).2 (Or.inl h))
  · rcases strLt_total a.2.data b.2.data with h' | h' | h'
    · exact Or.inl ((scoreLt_iff a b).2 (Or.inr ⟨h, h'⟩))
    · refine Or.inr (Or.inl ?_)
      have : a.2 = b.2 := by
        cases a2 : a.2 with | mk d1 => cases b2 : b.2 with | mk d2 =>
          rw [a2, b2] at h'
          exact congrArg String.mk h'
      exact Prod.ext h this
    · exact Or.inr (Or.inr ((scoreLt_iff b a).2 (Or.inr ⟨h.symm, h'⟩)))
  · exact Or.inr (Or.inr ((scoreLt_iff b a).2 (Or.inl h)))

lemma scoreLt_false_trans {a b c : ℚ × String} (h1 : scoreLt a b = false)
    (h2 : scoreLt b c = false) : scoreLt a c = false := by
  by_contra h
  have hac : scoreLt a c = true := by
    cases hx : scoreLt a c with
    | false => exact absurd hx h
    | true => rfl
  rcases scoreLt_total b c with hb | hb | hb
  · rw [hb] at h2; exact absurd h2 (by simp)
  · subst hb
    rw [hac] at h1; exact absurd h1 (by simp)
  · have := scoreLt_trans hac hb
    rw [this] at h1; exact absurd h1 (by simp)

lemma pickBest_spec : ∀ (l : List (ℚ × String)) (best : ℚ × String),
    (pickBest best l = best ∨ pickBest best l ∈ l) ∧
    scoreLt (pickBest best l) best = false ∧
    ∀ p ∈ l, scoreLt (pickBest best l) p = false
  | [], best => by simp [pickBest, scoreLt_irrefl]
  | p :: t, best => by
    by_cases hc : scoreLt best p = true
    · have IH := pickBest_spec t p
      simp only [pickBest, if_pos hc]
      refine ⟨?_, ?_, ?_⟩
      · rcases IH.1 with h | h
        · exact Or.inr (by rw [h]; exact List.mem_cons_self _ _)
        · exact Or.inr (List.mem_cons_of_mem _ h)
      · have hge : scoreLt (pickBest p t) p = false := IH.2.1
        by_contra hx
        have hx' : scoreLt (pickBest p t) best = true := by
          cases hv : scoreLt (pickBest p t) best with
          | false => exact absurd hv hx
          | true => rfl
        have := scoreLt_trans hx' hc
        rw [this] at hge
        exact absurd hge (by simp)
      · intro q hq
        rcases List.mem_cons.1 hq with rfl | hq'
        · exact IH.2.1
        · exact IH.2.2 q hq'
    · have hc' : scoreLt best p = false := by
        cases hv : scoreLt best p with
        | false => rfl
        | true => exact absurd hv hc
      have IH := pickBest_spec t best
      simp only [pickBest, if_neg hc]
      refine ⟨?_, IH.2.1, ?_⟩
      · rcases IH.1 with h | h
        · exact Or.inl h
        · exact Or.inr (List.mem_cons_of_mem _ h)
      · intro q hq
        rcases List.mem_cons.1 hq with rfl | hq'
        · exact scoreLt_false_trans IH.2.1 hc'
        · exact IH.2.2 q hq'

/-- C8 amended: for a nonempty input, `suggest_canonical_name` returns a
member whose `(score, name)` pair is lexicographically maximal: no
member's pair is strictly greater.  In particular, among names tied at
the maximal score the lexicographically greatest name (Python string
order) is returned — not the first-encountered one, since the sort
compares whole `(score, name)` tuples. -/
theorem suggest_canonical_name_lex_max (names : List String) (h : names ≠ []) :
    suggest_canonical_name names ∈ names ∧
    ∀ n ∈ names,
      scoreLt (scoreName (suggest_canonical_name names),
          suggest_canonical_name names)
        (scoreName n, n) = false := by
  match names with
  | [] => exact absurd rfl h
  | [n] =>
    constructor
    · simp [suggest_canonical_name]
    · intro m hm
      rcases List.mem_singleton.1 hm with rfl
      simp [suggest_canonical_name, scoreLt_irrefl]
  | n1 :: n2 :: rest =>
    have hp := pickBest_spec ((n2 :: rest).map fun m => (scoreName m, m))
      (scoreName n1, n1)
    have hshape :
        pickBest (scoreName n1, n1) ((n2 :: rest).map fun m => (scoreName m, m)) =
          (scoreName (pickBest (scoreName n1, n1)
              ((n2 :: rest).map fun m => (scoreName m, m))).2,
            (pickBest (scoreName n1, n1)
              ((n2 :: rest).map fun m => (scoreName m, m))).2) ∧
        (pickBest (scoreName n1, n1)
          ((n2 :: rest).map fun m => (scoreName m, m))).2 ∈ n1 :: n2 :: rest := by
      rcases hp.1 with h' | h'
      · rw [h']
        exact ⟨rfl, List.mem_cons_self _ _⟩
      · obtain ⟨m, hm, hme⟩ := List.mem_map.1 h'
        rw [← hme]
        exact ⟨rfl, List.mem_cons_of_mem _ hm⟩
    have hsug : suggest_canonical_name (n1 :: n2 :: rest) =
        (pickBest (scoreName n1, n1)
          ((n2 :: rest).map fun m => (scoreName m, m))).2 := rfl
    rw [hsug]
    refine ⟨hshape.2, fun n hn => ?_⟩
    rw [← hshape.1]
    rcases List.mem_cons.1 hn with rfl | hn'
    · exact hp.2.1
    · exact hp.2.2 _ (List.mem_map.2 ⟨n, hn', rfl⟩)

/-- C8 counterexample: "abc" and "abd" tie on the heuristic score, yet
`suggest_canonical_name` returns "abd", the lexicographically greater
name — not the first-encountered "abc": exact ties are broken by
descending name order, because the Python sort compares `(score, name)`
tuples. -/
theorem suggest_canonical_name_tie_not_first :
    scoreName "abc" = scoreName "abd" ∧
    suggest_canonical_name ["abc", "abd"] = "abd" := by
  have s1 : scoreName "abc" = 103 / 10 := by simp +decide [scoreName]; norm_num
  have s2 : scoreName "abd" = 103 / 10 := by simp +decide [scoreName]; norm_num
  constructor
  · rw [s1, s2]
  · have hlt : scoreLt (scoreName "abc", "abc") (scoreName "abd", "abd") = true := by
      rw [scoreLt_iff]
      exact Or.inr ⟨by rw [s1, s2], by decide⟩
    simp [suggest_canonical_name, pickBest, hlt]

/-- Witness for C8's amended theorem at a concrete nonempty input. -/
theorem suggest_canonical_name_lex_max_witness :
    (["abc", "abd"] ≠ ([] : List String)) ∧
    (suggest_canonical_name ["abc", "abd"] ∈ ["abc", "abd"] ∧
      ∀ n ∈ ["abc", "abd"],
        scoreLt (scoreName (suggest_canonical_name ["abc", "abd"]),
            suggest_canonical_name ["abc", "abd"])
          (scoreName n, n) = false) :=
  ⟨by decide, suggest_canonical_name_lex_max ["abc", "abd"] (by decide)⟩

/-- Witness for C7 at a concrete merge: the loser's first track collides
(after case folding and trimming) with the winner's only track, the
second is unique, and every catalog call succeeds. -/
theorem merge_pair_two_tracks_witness :
    (merge_artist_pair (fun _ => true) ⟨"wid", "AC/DC"⟩ ⟨"lid", "ACDC"⟩
        [⟨"wt1", "Back in Black"⟩]
        [⟨"lt1", "back in black "⟩, ⟨"lt2", "Thunderstruck"⟩]).deleted_dupes = 1 ∧
    (merge_artist_pair (fun _ => true) ⟨"wid", "AC/DC"⟩ ⟨"lid", "ACDC"⟩
        [⟨"wt1", "Back in Black"⟩]
        [⟨"lt1", "back in black "⟩, ⟨"lt2", "Thunderstruck"⟩]).reassigned = 1 ∧
    ((merge_artist_pair (fun _ => true) ⟨"wid", "AC/DC"⟩ ⟨"lid", "ACDC"⟩
        [⟨"wt1", "Back in Black"⟩]
        [⟨"lt1", "back in black "⟩, ⟨"lt2", "Thunderstruck"⟩]).ops.countP fun op =>
          match op with
          | MergeOp.deleteArtist _ => true
          | _ => false) = 1 :=
  merge_pair_two_tracks (fun _ => true) ⟨"wid", "AC/DC"⟩ ⟨"lid", "ACDC"⟩
    [⟨"wt1", "Back in Black"⟩] _ ⟨"lt1", "back in black "⟩ ⟨"lt2", "Thunderstruck"⟩
    (fun _ => rfl) (by decide) (by decide) (Or.inl rfl)

lemma hasSub_iff (w : List Char) : ∀ l : List Char,
    hasSub w l = true ↔ ∃ p s, l = p ++ w ++ s
  | [] => by
    simp only [hasSub, List.isEmpty_iff]
    constructor
    · rintro rfl
      exact ⟨[], [], rfl⟩
    · rintro ⟨p, s, hps⟩
      have h1 := List.append_eq_nil.1 hps.symm
      have h2 := List.append_eq_nil.1 h1.1
      exact h2.2
  | c :: t => by
    simp only [hasSub, Bool.or_eq_true, List.isPrefixOf_iff_prefix]
    constructor
    · rintro (h | h)
      · obtain ⟨s, hs⟩ := h
        exact ⟨[], s, hs.symm⟩
      · obtain ⟨p, s, rfl⟩ := (hasSub_iff w t).1 h
        exact ⟨c :: p, s, rfl⟩
    · rintro ⟨p, s, hps⟩
      cases p with
      | nil =>
        exact Or.inl ⟨s, by simpa using hps.symm⟩
      | cons d p' =>
        right
        rw [(hasSub_iff w t)]
        refine ⟨p', s, ?_⟩
        have := hps
        simp only [List.cons_append, List.cons.injEq, List.append_assoc] at this
        rw [this.2, List.append_assoc]

lemma hasSub_of_pref {w l : List Char} (h : w <+: l) : hasSub w l = true := by
  obtain ⟨s, rfl⟩ := h
  exact (hasSub_iff w _).2 ⟨[], s, rfl⟩

lemma hasSub_cons {w : List Char} {c : Char} {t : List Char}
    (h : hasSub w t = true) : hasSub w (c :: t) = true := by
  unfold hasSub
  rw [h]
  simp

lemma hasSub_append {w p s : List Char} (h : hasSub w s = true) :
    hasSub w (p ++ s) = true := by
  obtain ⟨a, b, rfl⟩ := (hasSub_iff w s).1 h
  exact (hasSub_iff w _).2 ⟨p ++ a, b, by simp⟩

lemma hasSub_append_left {w p s : List Char} (h : hasSub w p = true) :
    hasSub w (p ++ s) = true := by
  obtain ⟨a, b, rfl⟩ := (hasSub_iff w p).1 h
  exact (hasSub_iff w _).2 ⟨a, b ++ s, by simp⟩

lemma hasSub_trans {u w l : List Char} (h1 : hasSub u w = true)
    (h2 : hasSub w l = true) : hasSub u l = true := by
  obtain ⟨a, b, rfl⟩ := (hasSub_iff u w).1 h1
  obtain ⟨p, s, rfl⟩ := (hasSub_iff _ l).1 h2
  exact (hasSub_iff u _).2 ⟨p ++ a, b ++ s, by simp⟩

lemma hasSub_mem {w l : List Char} (h : hasSub w l = true) {c : Char}
    (hc : c ∈ w) : c ∈ l := by
  obtain ⟨p, s, rfl⟩ := (hasSub_iff w l).1 h
  simp [hc]

/-- `l` splits around its stripped core: `l = a ++ pyStrip l ++ b`. -/
lemma pyStrip_decomp (l : List Char) : ∃ a b, l = a ++ pyStrip l ++ b := by
  refine ⟨l.takeWhile pySpace,
    ((l.dropWhile pySpace).reverse.takeWhile pySpace).reverse, ?_⟩
  have h1 : l = l.takeWhile pySpace ++ l.dropWhile pySpace :=
    (List.takeWhile_append_dropWhile pySpace l).symm
  have h2 : l.dropWhile pySpace =
      pyStrip l ++ ((l.dropWhile pySpace).reverse.takeWhile pySpace).reverse := by
    have h3 : (l.dropWhile pySpace).reverse =
        (l.dropWhile pySpace).reverse.takeWhile pySpace ++
          (l.dropWhile pySpace).reverse.dropWhile pySpace :=
      (List.takeWhile_append_dropWhile pySpace _).symm
    calc l.dropWhile pySpace = (l.dropWhile pySpace).reverse.reverse := by simp
    _ = ((l.dropWhile pySpace).reverse.takeWhile pySpace ++
          (l.dropWhile pySpace).reverse.dropWhile pySpace).reverse := by rw [← h3]
    _ = pyStrip l ++ ((l.dropWhile pySpace).reverse.takeWhile pySpace).reverse := by
          rw [List.reverse_append]; rfl
  conv_lhs => rw [h1, h2]
  simp

lemma hasSub_pyStrip {w l : List Char} (h : hasSub w (pyStrip l) = true) :
    hasSub w l = true := by
  obtain ⟨a, b, hl⟩ := pyStrip_decomp l
  rw [hl]
  exact hasSub_append_left (hasSub_append h)

lemma lowerChar_toNat_of_upper {c : Char} (h1 : 65 ≤ c.toNat) (h2 : c.toNat ≤ 90) :
    (lowerChar c).toNat = c.toNat + 32 := by
  have hval : Nat.isValidChar (c.toNat + 32) := Or.inl (by omega)
  unfold lowerChar
  rw [if_pos ⟨h1, h2⟩]
  unfold Char.ofNat
  rw [dif_pos hval]
  rfl

lemma lowerChar_eq_self {c : Char} (h : ¬(65 ≤ c.toNat ∧ c.toNat ≤ 90)) :
    lowerChar c = c := by
  unfold lowerChar
  rw [if_neg h]

lemma pySpace_lowerChar (c : Char) : pySpace (lowerChar c) = pySpace c := by
  by_cases h : 65 ≤ c.toNat ∧ c.toNat ≤ 90
  · have hv := lowerChar_toNat_of_upper h.1 h.2
    simp only [pySpace, hv]
    have h1 := h.1
    have h2 := h.2
    apply Eq.trans (b := false)
    · simp only [Bool.or_eq_false_iff, decide_eq_false_iff_not]
      omega
    · symm
      simp only [Bool.or_eq_false_iff, decide_eq_false_iff_not]
      omega
  · rw [lowerChar_eq_self h]

lemma lowerChar_idem (c : Char) : lowerChar (lowerChar c) = lowerChar c := by
  by_cases h : 65 ≤ c.toNat ∧ c.toNat ≤ 90
  · have hv := lowerChar_toNat_of_upper h.1 h.2
    apply lowerChar_eq_self
    rw [hv]
    omega
  · rw [lowerChar_eq_self h, lowerChar_eq_self h]

lemma lowerChar_eq_comma {c : Char} (h : lowerChar c = ',') : c = ',' := by
  by_cases hc : 65 ≤ c.toNat ∧ c.toNat ≤ 90
  · exfalso
    have hv := lowerChar_toNat_of_upper hc.1 hc.2
    rw [h] at hv
    have : (',').toNat = 44 := by decide
    omega
  · rwa [lowerChar_eq_self hc] at h

lemma dropWhile_head_not {p : Char → Bool} : ∀ {l : List Char} {c : Char},
    (l.dropWhile p).head? = some c → p c = false
  | [], c => by simp [List.dropWhile]
  | a :: t, c => by
    intro h
    by_cases ha : p a
    · rw [List.dropWhile_cons_of_pos ha] at h
      exact dropWhile_head_not h
    · rw [List.dropWhile_cons_of_neg ha] at h
      simp only [List.head?_cons, Option.some.injEq] at h
      subst h
      simpa using ha

lemma dropWhile_eq_self {p : Char → Bool} {l : List Char}
    (h : ∀ c, l.head? = some c → p c = false) : l.dropWhile p = l := by
  cases l with
  | nil => rfl
  | cons a t => exact List.dropWhile_cons_of_neg (by simp [h a rfl])

/-- `dropTrailWs l` is a prefix of `l`. -/
lemma dropTrailWs_decomp (l : List Char) : ∃ b, l = dropTrailWs l ++ b := by
  refine ⟨(l.reverse.takeWhile pySpace).reverse, ?_⟩
  calc l = l.reverse.reverse := by simp
  _ = (l.reverse.takeWhile pySpace ++ l.reverse.dropWhile pySpace).reverse := by
        rw [List.takeWhile_append_dropWhile]
  _ = dropTrailWs l ++ (l.reverse.takeWhile pySpace).reverse := by
        rw [List.reverse_append]; rfl

lemma dropTrailWs_getLast {l : List Char} {c : Char}
    (h : (dropTrailWs l).getLast? = some c) : pySpace c = false := by
  rw [List.getLast?_eq_head?_reverse] at h
  unfold dropTrailWs at h
  rw [List.reverse_reverse] at h
  exact dropWhile_head_not h

lemma dropTrailWs_eq_self {l : List Char}
    (h : ∀ c, l.getLast? = some c → pySpace c = false) : dropTrailWs l = l := by
  unfold dropTrailWs
  rw [dropWhile_eq_self, List.reverse_reverse]
  intro c hc
  exact h c (by rwa [List.getLast?_eq_head?_reverse])

lemma pyStrip_head {l : List Char} {c : Char}
    (h : (pyStrip l).head? = some c) : pySpace c = false := by
  unfold pyStrip at h
  obtain ⟨b, hb⟩ := dropTrailWs_decomp (l.dropWhile pySpace)
  apply dropWhile_head_not (l := l) (p := pySpace)
  rw [hb]
  cases hd : dropTrailWs (l.dropWhile pySpace) with
  | nil => rw [hd] at h; simp at h
  | cons x xs =>
    rw [hd] at h
    simp only [List.head?_cons, Option.some.injEq] at h
    subst h
    simp

lemma pyStrip_getLast {l : List Char} {c : Char}
    (h : (pyStrip l).getLast? = some c) : pySpace c = false :=
  dropTrailWs_getLast h

lemma pyStrip_idem (l : List Char) : pyStrip (pyStrip l) = pyStrip l := by
  have h1 : (pyStrip l).dropWhile pySpace = pyStrip l :=
    dropWhile_eq_self fun c hc => pyStrip_head hc
  show dropTrailWs ((pyStrip l).dropWhile pySpace) = pyStrip l
  rw [h1]
  exact dropTrailWs_eq_self fun c hc => pyStrip_getLast hc

lemma pyLower_dropWhile (l : List Char) :
    pyLower (l.dropWhile pySpace) = (pyLower l).dropWhile pySpace := by
  unfold pyLower
  rw [List.dropWhile_map]
  have h : (pySpace ∘ lowerChar) = pySpace := funext pySpace_lowerChar
  rw [h]

lemma pyLower_reverse (l : List Char) : pyLower l.reverse = (pyLower l).reverse := by
  unfold pyLower
  exact List.map_reverse lowerChar l

lemma pyLower_dropTrailWs (l : List Char) :
    pyLower (dropTrailWs l) = dropTrailWs (pyLower l) := by
  unfold dropTrailWs
  rw [pyLower_reverse, pyLower_dropWhile, pyLower_reverse]

lemma pyLower_pyStrip (l : List Char) :
    pyLower (pyStrip l) = pyStrip (pyLower l) := by
  unfold pyStrip
  rw [pyLower_dropTrailWs, pyLower_dropWhile]

lemma collapseWs_head : ∀ (c : Char) (t : List Char),
    (collapseWs (c :: t)).head? = some (if pySpace c then ' ' else c)
  | c, [] => by
    unfold collapseWs
    by_cases h : pySpace c <;> simp [h]
  | c, c2 :: t => by
    by_cases hb : pySpace c && pySpace c2
    · have h1 : pySpace c = true := by
        cases hv : pySpace c
        · rw [hv] at hb; simp at hb
        · rfl
      have h2 : pySpace c2 = true := by
        cases hv : pySpace c2
        · rw [hv] at hb; simp at hb
        · rfl
      show (collapseWs (c :: c2 :: t)).head? = _
      unfold collapseWs
      rw [if_pos hb]
      rw [collapseWs_head c2 t]
      simp [h1, h2]
    · show (collapseWs (c :: c2 :: t)).head? = _
      unfold collapseWs
      rw [if_neg hb]
      simp

lemma collapseWs_prefix_rev : ∀ (l w : List Char),
    (∀ c ∈ w, pySpace c = false) → w <+: collapseWs l → w <+: l
  | [], w => by
    intro _ h
    simpa [collapseWs] using h
  | [c], w => by
    intro hw h
    unfold collapseWs at h
    cases w with
    | nil => exact List.nil_prefix
    | cons d w' =>
      by_cases hc : pySpace c
      · rw [if_pos hc] at h
        rcases List.cons_prefix_cons.1 h with ⟨rfl, _⟩
        have := hw ' ' (List.mem_cons_self _ _)
        exact absurd this (by decide)
      · rw [if_neg hc] at h
        rcases List.cons_prefix_cons.1 h with ⟨rfl, hw'⟩
        have he : w' = [] := List.prefix_nil.1 hw'
        subst he
        exact List.cons_prefix_cons.2 ⟨rfl, List.nil_prefix⟩
  | c1 :: c2 :: t, w => by
    intro hw h
    by_cases hb : pySpace c1 && pySpace c2
    · unfold collapseWs at h
      rw [if_pos hb] at h
      have h2 : pySpace c2 = true := by
        cases hv : pySpace c2
        · rw [hv] at hb; simp at hb
        · rfl
      have hp := collapseWs_prefix_rev (c2 :: t) w hw h
      cases w with
      | nil => exact List.nil_prefix
      | cons d w' =>
        have hd : d = c2 := (List.cons_prefix_cons.1 hp).1
        have hw0 := hw d (List.mem_cons_self _ _)
        rw [hd, h2] at hw0
        cases hw0
    · unfold collapseWs at h
      rw [if_neg hb] at h
      cases w with
      | nil => exact List.nil_prefix
      | cons d w' =>
        rcases List.cons_prefix_cons.1 h with ⟨hd, hw'⟩
        have hp' := collapseWs_prefix_rev (c2 :: t) w'
          (fun c hc => hw c (List.mem_cons_of_mem _ hc)) hw'
        by_cases hc1 : pySpace c1
        · exfalso
          rw [if_pos hc1] at hd
          subst hd
          have := hw ' ' (List.mem_cons_self _ _)
          exact absurd this (by decide)
        · rw [if_neg hc1] at hd
          subst hd
          exact List.cons_prefix_cons.2 ⟨rfl, hp'⟩

lemma collapseWs_hasSub : ∀ (l w : List Char),
    (∀ c ∈ w, pySpace c = false) → hasSub w (collapseWs l) = true →
    hasSub w l = true
  | [], w => by
    intro _ h
    simpa [collapseWs] using h
  | [c], w => by
    intro hw h
    unfold collapseWs at h
    cases w with
    | nil => simp [hasSub]
    | cons d w' =>
      by_cases hc : pySpace c
      · rw [if_pos hc] at h
        simp only [hasSub, Bool.or_eq_true, List.isPrefixOf_iff_prefix] at h
        rcases h with h | h
        · rcases List.cons_prefix_cons.1 h with ⟨rfl, _⟩
          have := hw ' ' (List.mem_cons_self _ _)
          exact absurd this (by decide)
        · simp only [hasSub, List.isEmpty_iff] at h
          cases h
      · rw [if_neg hc] at h
        exact h
  | c1 :: c2 :: t, w => by
    intro hw h
    by_cases hb : pySpace c1 && pySpace c2
    · unfold collapseWs at h
      rw [if_pos hb] at h
      exact hasSub_cons (collapseWs_hasSub (c2 :: t) w hw h)
    · have hcol : collapseWs (c1 :: c2 :: t) =
          (if pySpace c1 then ' ' else c1) :: collapseWs (c2 :: t) := by
        rw [show collapseWs (c1 :: c2 :: t) =
          (if pySpace c1 && pySpace c2 then collapseWs (c2 :: t)
           else (if pySpace c1 then ' ' else c1) :: collapseWs (c2 :: t)) from rfl]
        rw [if_neg hb]
      rw [hcol] at h
      simp only [hasSub, Bool.or_eq_true, List.isPrefixOf_iff_prefix] at h
      rcases h with h | h
      · have hpre : w <+: collapseWs (c1 :: c2 :: t) := by
          rw [hcol]
          exact h
        exact hasSub_of_pref (collapseWs_prefix_rev _ w hw hpre)
      · exact hasSub_cons (collapseWs_hasSub (c2 :: t) w hw h)

/-- Invariant characterizing outputs of `collapseWs`: every whitespace
character is `' '` and no two adjacent characters are both whitespace. -/
def collOk : List Char → Bool
  | [] => true
  | [c] => !pySpace c || c == ' '
  | c1 :: c2 :: t => (!pySpace c1 || (c1 == ' ' && !pySpace c2)) && collOk (c2 :: t)

lemma collOk_cons_of_collOk : ∀ {c : Char} {t : List Char},
    collOk (c :: t) = true → collOk t = true := by
  intro c t h
  cases t with
  | nil => rfl
  | cons c2 t' =>
    rw [show collOk (c :: c2 :: t') =
      ((!pySpace c || (c == ' ' && !pySpace c2)) && collOk (c2 :: t')) from rfl] at h
    rw [Bool.and_eq_true] at h
    exact h.2

lemma collapseWs_collOk : ∀ l : List Char, collOk (collapseWs l) = true
  | [] => rfl
  | [c] => by
    unfold collapseWs
    by_cases h : pySpace c
    · rw [if_pos h]; rfl
    · rw [if_neg h]
      rw [show collOk [c] = (!pySpace c || c == ' ') from rfl]
      simp [h]
  | c1 :: c2 :: t => by
    by_cases hb : pySpace c1 && pySpace c2
    · rw [show collapseWs (c1 :: c2 :: t) =
        (if pySpace c1 && pySpace c2 then collapseWs (c2 :: t)
         else (if pySpace c1 then ' ' else c1) :: collapseWs (c2 :: t)) from rfl]
      rw [if_pos hb]
      exact collapseWs_collOk (c2 :: t)
    · rw [show collapseWs (c1 :: c2 :: t) =
        (if pySpace c1 && pySpace c2 then collapseWs (c2 :: t)
         else (if pySpace c1 then ' ' else c1) :: collapseWs (c2 :: t)) from rfl]
      rw [if_neg hb]
      have hrec := collapseWs_collOk (c2 :: t)
      have hhead := collapseWs_head c2 t
      cases hr : collapseWs (c2 :: t) with
      | nil => rw [hr] at hhead; simp at hhead
      | cons y r' =>
        rw [hr] at hhead hrec
        simp only [List.head?_cons, Option.some.injEq] at hhead
        rw [show collOk ((if pySpace c1 then ' ' else c1) :: y :: r') =
          ((!pySpace (if pySpace c1 then ' ' else c1) ||
            ((if pySpace c1 then ' ' else c1) == ' ' && !pySpace y)) &&
            collOk (y :: r')) from rfl]
      
        rw [hrec]
        by_cases hc1 : pySpace c1
        · have hc2 : pySpace c2 = false := by
            cases hv : pySpace c2
            · rfl
            · rw [hv] at hb; simp [hc1] at hb
          rw [show (if pySpace c2 = true then ' ' else c2) = c2 from
            if_neg (by simp [hc2])] at hhead
          subst hhead
          rw [if_pos hc1]
          simp [hc2, show pySpace ' ' = true from by decide]
        · have hc1' : pySpace c1 = false := by
            cases hv : pySpace c1
            · rfl
            · exact absurd hv hc1
          rw [if_neg hc1]
          simp [hc1']

lemma collOk_append_left : ∀ (a b : List Char),
    collOk (a ++ b) = true → collOk a = true
  | [], _ => by intro _; rfl
  | [c], b => by
    intro h
    cases b with
    | nil => simpa using h
    | cons d b' =>
      rw [show ([c] ++ d :: b') = c :: d :: b' from rfl] at h
      rw [show collOk (c :: d :: b') =
        ((!pySpace c || (c == ' ' && !pySpace d)) && collOk (d :: b')) from rfl] at h
      rw [Bool.and_eq_true] at h
      have h1 := h.1
      rw [show collOk [c] = (!pySpace c || c == ' ') from rfl]
      rw [Bool.or_eq_true] at h1
      rcases h1 with h2 | h2
      · simp [h2]
      · rw [Bool.and_eq_true] at h2
        simp [h2.1, h2.2]
  | c :: d :: a', b => by
    intro h
    rw [show ((c :: d :: a') ++ b) = c :: d :: (a' ++ b) from rfl] at h
    rw [show collOk (c :: d :: (a' ++ b)) =
      ((!pySpace c || (c == ' ' && !pySpace d)) && collOk (d :: (a' ++ b))) from rfl] at h
    rw [Bool.and_eq_true] at h
    have h1 := h
    have h2 := collOk_append_left (d :: a') b h1.2
    rw [show collOk (c :: d :: a') =
      ((!pySpace c || (c == ' ' && !pySpace d)) && collOk (d :: a')) from rfl]
    rw [h1.1, h2]
    rfl

lemma collOk_append_right : ∀ (a b : List Char),
    collOk (a ++ b) = true → collOk b = true := by
  intro a
  induction a with
  | nil => intro b h; exact h
  | cons c a' ih =>
    intro b h
    exact ih b (collOk_cons_of_collOk h)

lemma collOk_eq_self : ∀ l : List Char, collOk l = true → collapseWs l = l
  | [] => by intro _; rfl
  | [c] => by
    intro h
    rw [show collOk [c] = (!pySpace c || c == ' ') from rfl] at h
    unfold collapseWs
    rw [Bool.or_eq_true] at h
    by_cases hc : pySpace c
    · rw [if_pos hc]
      rcases h with h2 | h2
      · rw [hc] at h2; simp at h2
      · rw [show ((c == ' ') = true) ↔ c = ' ' from beq_iff_eq] at h2
        rw [h2]
    · rw [if_neg hc]
  | c1 :: c2 :: t => by
    intro h
    rw [show collOk (c1 :: c2 :: t) =
      ((!pySpace c1 || (c1 == ' ' && !pySpace c2)) && collOk (c2 :: t)) from rfl] at h
    rw [Bool.and_eq_true] at h
    have h1 := h
    have hor := h1.1
    rw [Bool.or_eq_true] at hor
    have hb : (pySpace c1 && pySpace c2) = false := by
      rcases hor with h2 | h2
      · cases hv : pySpace c1
        · rfl
        · rw [hv] at h2; simp at h2
      · rw [Bool.and_eq_true] at h2
        have := h2.2
        cases hv : pySpace c2
        · simp
        · rw [hv] at this; simp at this
    rw [show collapseWs (c1 :: c2 :: t) =
      (if pySpace c1 && pySpace c2 then collapseWs (c2 :: t)
       else (if pySpace c1 then ' ' else c1) :: collapseWs (c2 :: t)) from rfl]
    rw [hb]
    simp only [Bool.false_eq_true, if_false]
    rw [collOk_eq_self (c2 :: t) h1.2]
    by_cases hc1 : pySpace c1
    · rcases hor with h2 | h2
      · rw [hc1] at h2; simp at h2
      · rw [Bool.and_eq_true] at h2
        have hce := h2.1
        rw [show ((c1 == ' ') = true) ↔ c1 = ' ' from beq_iff_eq] at hce
        rw [if_pos hc1, hce]
    · rw [if_neg hc1]

lemma collapseWs_mem : ∀ (l : List Char) (c : Char),
    c ∈ collapseWs l → c ∈ l ∨ c = ' '
  | [], c => by intro h; cases h
  | [d], c => by
    intro h
    unfold collapseWs at h
    by_cases hd : pySpace d
    · rw [if_pos hd] at h
      rcases List.mem_singleton.1 h with rfl
      exact Or.inr rfl
    · rw [if_neg hd] at h
      exact Or.inl h
  | c1 :: c2 :: t, c => by
    intro h
    rw [show collapseWs (c1 :: c2 :: t) =
      (if pySpace c1 && pySpace c2 then collapseWs (c2 :: t)
       else (if pySpace c1 then ' ' else c1) :: collapseWs (c2 :: t)) from rfl] at h
    by_cases hb : pySpace c1 && pySpace c2
    · rw [if_pos hb] at h
      rcases collapseWs_mem (c2 :: t) c h with h' | h'
      · exact Or.inl (List.mem_cons_of_mem _ h')
      · exact Or.inr h'
    · rw [if_neg hb] at h
      rcases List.mem_cons.1 h with rfl | h'
      · by_cases hc1 : pySpace c1
        · rw [if_pos hc1]; exact Or.inr rfl
        · rw [if_neg hc1]; exact Or.inl (List.mem_cons_self _ _)
      · rcases collapseWs_mem (c2 :: t) c h' with h'' | h''
        · exact Or.inl (List.mem_cons_of_mem _ h'')
        · exact Or.inr h''

lemma pyStrip_mem {l : List Char} {c : Char} (h : c ∈ pyStrip l) : c ∈ l := by
  obtain ⟨a, b, hl⟩ := pyStrip_decomp l
  rw [hl]
  simp [h]

lemma matchWsWordWs_hasSub {w l r : List Char}
    (h : matchWsWordWs w l = some r) : hasSub w l = true := by
  unfold matchWsWordWs at h
  by_cases h0 : (spanSpace l).1 = 0
  · rw [if_pos h0] at h; cases h
  · rw [if_neg h0] at h
    by_cases hp : w.isPrefixOf (spanSpace l).2 = true
    · have hpre : w <+: l.dropWhile pySpace := List.isPrefixOf_iff_prefix.1 hp
      have h1 : hasSub w (l.dropWhile pySpace) = true := hasSub_of_pref hpre
      have h2 := hasSub_append (p := l.takeWhile pySpace) h1
      rwa [List.takeWhile_append_dropWhile] at h2
    · rw [if_neg hp] at h; cases h

lemma tryParenAt_hasSub {marker l r : List Char}
    (h : tryParenAt marker l = some r) : hasSub marker l = true := by
  unfold tryParenAt at h
  by_cases hp : marker.isPrefixOf (spanSpace l).2 = true
  · have hpre : marker <+: l.dropWhile pySpace := List.isPrefixOf_iff_prefix.1 hp
    have h1 : hasSub marker (l.dropWhile pySpace) = true := hasSub_of_pref hpre
    have h2 := hasSub_append (p := l.takeWhile pySpace) h1
    rwa [List.takeWhile_append_dropWhile] at h2
  · rw [if_neg hp] at h; cases h

lemma tryTrailAt_hasSub {marker l r : List Char}
    (h : tryTrailAt marker l = some r) : hasSub marker l = true := by
  unfold tryTrailAt at h
  by_cases hp : marker.isPrefixOf (spanSpace l).2 = true
  · have hpre : marker <+: l.dropWhile pySpace := List.isPrefixOf_iff_prefix.1 hp
    have h1 : hasSub marker (l.dropWhile pySpace) = true := hasSub_of_pref hpre
    have h2 := hasSub_append (p := l.takeWhile pySpace) h1
    rwa [List.takeWhile_append_dropWhile] at h2
  · rw [if_neg hp] at h; cases h

/-- A substitution scan leaves the input unchanged when the pattern's
telltale word never occurs in it. -/
lemma scanSub_id (tryAt : List Char → Option (List Char)) (rep w : List Char)
    (hT : ∀ t r, tryAt t = some r → hasSub w t = true) :
    ∀ (fuel : Nat) (l : List Char), hasSub w l = false →
      scanSub tryAt rep fuel l = l
  | 0, l => fun _ => rfl
  | _ + 1, [] => fun _ => rfl
  | fuel + 1, c :: t => by
    intro h
    have hnone : tryAt (c :: t) = none := by
      cases hv : tryAt (c :: t) with
      | none => rfl
      | some r =>
        have := hT _ r hv
        rw [h] at this
        cases this
    have ht : hasSub w t = false := by
      have h' := h
      rw [show hasSub w (c :: t) = (w.isPrefixOf (c :: t) || hasSub w t) from rfl,
        Bool.or_eq_false_iff] at h'
      exact h'.2
    rw [show scanSub tryAt rep (fuel + 1) (c :: t) =
      (match tryAt (c :: t) with
       | some rest => rep ++ scanSub tryAt rep fuel rest
       | none => c :: scanSub tryAt rep fuel t) from rfl]
    rw [hnone]
    rw [scanSub_id tryAt rep w hT fuel t ht]

lemma hasSub_false_of {u w l : List Char} (hu : hasSub u w = true)
    (hl : hasSub u l = false) : hasSub w l = false := by
  cases hv : hasSub w l with
  | false => rfl
  | true =>
    have := hasSub_trans hu hv
    rw [hl] at this
    cases this

lemma stripLeadThe_id {l : List Char}
    (h : hasSub ['t', 'h', 'e'] l = false) : stripLeadThe l = l := by
  unfold stripLeadThe
  by_cases hp : ['t', 'h', 'e'].isPrefixOf l = true
  · exfalso
    have := hasSub_of_pref (List.isPrefixOf_iff_prefix.1 hp)
    rw [h] at this
    cases this
  · rw [if_neg hp]

lemma commaStep_id {l : List Char} (h : (',' : Char) ∉ l) : commaStep l = l := by
  unfold commaStep
  rw [if_neg]
  intro hcond
  exact h (hasSub_mem hcond.1 (List.mem_cons_self _ _))

lemma pyLower_eq_self {l : List Char} (h : ∀ c ∈ l, lowerChar c = c) :
    pyLower l = l := by
  induction l with
  | nil => rfl
  | cons c t ih =>
    unfold pyLower at ih ⊢
    rw [List.map_cons, h c (List.mem_cons_self _ _),
      ih fun d hd => h d (List.mem_cons_of_mem _ hd)]

/-- On a name with no comma and (case-insensitively) no occurrence of
"the", "and", "feat" or "ft", every rewrite step of `normalize_name` is
the identity and the normalizer reduces to strip + lowercase + whitespace
collapse + strip. -/
lemma normalizeChars_plain (l : List Char)
    (hc : (',' : Char) ∉ l)
    (hthe : hasSub ['t', 'h', 'e'] (pyLower l) = false)
    (hand : hasSub ['a', 'n', 'd'] (pyLower l) = false)
    (hfeat : hasSub ['f', 'e', 'a', 't'] (pyLower l) = false)
    (hft : hasSub ['f', 't'] (pyLower l) = false) :
    normalizeChars l = pyStrip (collapseWs (pyLower (pyStrip l))) := by
  have hX : ∀ w : List Char, hasSub w (pyLower l) = false →
      hasSub w (pyLower (pyStrip l)) = false := by
    intro w hw
    rw [pyLower_pyStrip]
    cases hv : hasSub w (pyStrip (pyLower l)) with
    | false => rfl
    | true =>
      have := hasSub_pyStrip hv
      rw [hw] at this
      cases this
  have hcomma : commaStep (pyStrip l) = pyStrip l :=
    commaStep_id fun hmem => hc (pyStrip_mem hmem)
  have hthe' := hX _ hthe
  have hand' := hX _ hand
  have hfeat' := hX _ hfeat
  have hft' := hX _ hft
  have hAnd : subAnd (pyLower (pyStrip l)) = pyLower (pyStrip l) :=
    scanSub_id _ _ _ (fun _ _ hv => matchWsWordWs_hasSub hv) _ _ hand'
  have hThe : subThe (pyLower (pyStrip l)) = pyLower (pyStrip l) :=
    scanSub_id _ _ _ (fun _ _ hv => matchWsWordWs_hasSub hv) _ _ hthe'
  have hLead : stripLeadThe (pyLower (pyStrip l)) = pyLower (pyStrip l) :=
    stripLeadThe_id hthe'
  have hFP : subFeatParen (pyLower (pyStrip l)) = pyLower (pyStrip l) :=
    scanSub_id _ _ ['(', 'f', 'e', 'a', 't', '.']
      (fun _ _ hv => tryParenAt_hasSub hv) _ _
      (hasSub_false_of (by decide) hfeat')
  have hTP : subFtParen (pyLower (pyStrip l)) = pyLower (pyStrip l) :=
    scanSub_id _ _ ['(', 'f', 't', '.']
      (fun _ _ hv => tryParenAt_hasSub hv) _ _
      (hasSub_false_of (by decide) hft')
  have hFT : subFeatTrail (pyLower (pyStrip l)) = pyLower (pyStrip l) :=
    scanSub_id _ _ ['f', 'e', 'a', 't', '.']
      (fun _ _ hv => tryTrailAt_hasSub hv) _ _
      (hasSub_false_of (by decide) hfeat')
  have hTT : subFtTrail (pyLower (pyStrip l)) = pyLower (pyStrip l) :=
    scanSub_id _ _ ['f', 't', '.']
      (fun _ _ hv => tryTrailAt_hasSub hv) _ _
      (hasSub_false_of (by decide) hft')
  unfold normalizeChars
  simp only [hcomma, hAnd, hThe, hLead, hFP, hTP, hFT, hTT]

/-- The normalized form of a plain name stays in the plain class and is a
fixed point of strip, lowercase and whitespace collapse. -/
lemma normalizeChars_plain_fixed (l : List Char)
    (hc : (',' : Char) ∉ l)
    (hthe : hasSub ['t', 'h', 'e'] (pyLower l) = false)
    (hand : hasSub ['a', 'n', 'd'] (pyLower l) = false)
    (hfeat : hasSub ['f', 'e', 'a', 't'] (pyLower l) = false)
    (hft : hasSub ['f', 't'] (pyLower l) = false) :
    normalizeChars (normalizeChars l) = normalizeChars l := by
  have hnc := normalizeChars_plain l hc hthe hand hfeat hft
  set X := pyLower (pyStrip l) with hXdef
  set m := pyStrip (collapseWs X) with hmdef
  have hmem : ∀ c ∈ m, c ∈ X ∨ c = ' ' := by
    intro c hcm
    exact collapseWs_mem X c (pyStrip_mem hcm)
  have hm_lower_char : ∀ c ∈ m, lowerChar c = c := by
    intro c hcm
    rcases hmem c hcm with hcx | rfl
    · rw [hXdef] at hcx
      obtain ⟨d, _, rfl⟩ := List.mem_map.1 hcx
      exact lowerChar_idem d
    · decide
  have hm_lower : pyLower m = m := pyLower_eq_self hm_lower_char
  have hm_comma : (',' : Char) ∉ m := by
    intro hcm
    rcases hmem ',' hcm with hcx | hsp
    · rw [hXdef] at hcx
      obtain ⟨d, hd, hde⟩ := List.mem_map.1 hcx
      rw [lowerChar_eq_comma hde] at hd
      exact hc (pyStrip_mem hd)
    · cases hsp
  have hm_strip : pyStrip m = m := by
    rw [hmdef]
    exact pyStrip_idem _
  have hm_hasSub : ∀ w : List Char, (∀ c ∈ w, pySpace c = false) →
      hasSub w X = false → hasSub w m = false := by
    intro w hw hX0
    cases hv : hasSub w m with
    | false => rfl
    | true =>
      have h1 := hasSub_pyStrip hv
      have h2 := collapseWs_hasSub X w hw h1
      rw [hX0] at h2
      cases h2
  have hX0 : ∀ w : List Char, hasSub w (pyLower l) = false →
      hasSub w X = false := by
    intro w hw
    rw [hXdef, pyLower_pyStrip]
    cases hv : hasSub w (pyStrip (pyLower l)) with
    | false => rfl
    | true =>
      have := hasSub_pyStrip hv
      rw [hw] at this
      cases this
  have hm_the := hm_hasSub _ (by decide) (hX0 _ hthe)
  have hm_and := hm_hasSub _ (by decide) (hX0 _ hand)
  have hm_feat := hm_hasSub _ (by decide) (hX0 _ hfeat)
  have hm_ft := hm_hasSub _ (by decide) (hX0 _ hft)
  have hm_coll : collapseWs m = m := by
    apply collOk_eq_self
    have h1 := collapseWs_collOk X
    have h2 : collOk ((collapseWs X).dropWhile pySpace) = true := by
      have hd := (List.takeWhile_append_dropWhile pySpace (collapseWs X)).symm
      exact collOk_append_right _ _ (by rw [← hd]; exact h1)
    obtain ⟨b, hb⟩ := dropTrailWs_decomp ((collapseWs X).dropWhile pySpace)
    have h3 : collOk (dropTrailWs ((collapseWs X).dropWhile pySpace) ++ b) = true := by
      rw [← hb]
      exact h2
    have h4 := collOk_append_left _ _ h3
    rw [hmdef]
    exact h4
  have hsecond := normalizeChars_plain m hm_comma
    (by rw [hm_lower]; exact hm_the)
    (by rw [hm_lower]; exact hm_and)
    (by rw [hm_lower]; exact hm_feat)
    (by rw [hm_lower]; exact hm_ft)
  rw [hnc]
  show normalizeChars m = m
  rw [hsecond, hm_strip, hm_lower, hm_coll, hm_strip]

/-- C3 counterexample: the coarse normalizer is not idempotent.  On
`"a, the b"` the `"Last, First"` rewrite is blocked by the function word
`"the"` and the `the`-token removal then yields `"a, b"`; renormalizing
`"a, b"` triggers the rewrite and yields `"b a"`. -/
theorem normalize_name_not_idempotent :
    normalize_name (normalize_name "a, the b") ≠ normalize_name "a, the b" := by
  decide

/-- C3 amended: `normalize_name` is idempotent on names containing no
comma and — case-insensitively — no occurrence of the substrings "the",
"and", "feat", "ft"; on that class the normalizer reduces to strip,
lowercase and whitespace collapse, which are jointly idempotent.  (It is
not idempotent in general, see the counterexample.) -/
theorem normalize_name_idem_on_plain (s : String)
    (hc : (',' : Char) ∉ s.data)
    (hthe : hasSub "the".data (pyLower s.data) = false)
    (hand : hasSub "and".data (pyLower s.data) = false)
    (hfeat : hasSub "feat".data (pyLower s.data) = false)
    (hft : hasSub "ft".data (pyLower s.data) = false) :
    normalize_name (normalize_name s) = normalize_name s := by
  have h := normalizeChars_plain_fixed s.data hc hthe hand hfeat hft
  unfold normalize_name
  congr 1

/-- Witness for C3's amended theorem at `"Pink Floyd"`. -/
theorem normalize_name_idem_on_plain_witness :
    ((',' : Char) ∉ "Pink Floyd".data) ∧
    hasSub "the".data (pyLower "Pink Floyd".data) = false ∧
    hasSub "and".data (pyLower "Pink Floyd".data) = false ∧
    hasSub "feat".data (pyLower "Pink Floyd".data) = false ∧
    hasSub "ft".data (pyLower "Pink Floyd".data) = false ∧
    normalize_name (normalize_name "Pink Floyd") = normalize_name "Pink Floyd" :=
  ⟨by decide, by decide, by decide, by decide, by decide,
    normalize_name_idem_on_plain "Pink Floyd" (by decide) (by decide) (by decide)
      (by decide) (by decide)⟩
